import Mathlib

/-!
Verification development for the retrieval-and-answer pipeline of the
ChatBot_IALatex backend.  Shallow embeddings of:

* `GeminiProvider.generate_stream` / `SearchEngine._generate_with_custom_key`
  (backend/services/ai_providers.py, backend/services/search_engine.py):
  the brace-depth / in-string / escape state machine that extracts
  concatenated top-level JSON objects from a byte stream;
* the other providers' line-based stream loops and their HTTP-status gates;
* `AdvancedEmbeddingSystem` (backend/services/embedding_system.py): the
  two-tier embedding cache (in-process LRU + optional Redis) and
  `create_embeddings`;
* `SearchEngine.hybrid_search` and `_highlight_relevant_sentences`
  (backend/services/search_engine.py);
* the `/chat/search` endpoint's empty-result branch
  (backend/app/routers/chat.py);
* `ProviderFactory.get_provider` (backend/services/ai_providers.py).

Machine integers are modelled as `Nat`/`Int`; vectors and metadata are
opaque type parameters; Python dicts are association lists with the
source's insertion-order semantics; fallible library calls
(`json.loads`, `bytes.decode`) are modelled as `Option`-returning
functions.
-/

namespace ChatBotSpec

/-! ### The concatenated-object stream parser
(`GeminiProvider.generate_stream`, ai_providers.py lines 137-186, and the
textually identical loop in `SearchEngine._generate_with_custom_key`,
search_engine.py lines 229-284).

The scanner state is the mutable local state of the Python loop:
`buffer`, `depth`, `in_string`, `escape`.  The call
`json.loads(buffer[start:])` together with the walk over
`candidates[i].content.parts[j].text` is abstracted as a parameter
`extract : List Char → Option (List String)`: `none` models
`json.JSONDecodeError` (buffer kept), `some texts` models a successful
parse yielding the listed text fragments.  A concrete instance
faithful to the source's walk is built below (`extractGemini`). -/

structure GemState where
  buffer : List Char
  depth : Int
  inString : Bool
  escape : Bool
deriving Repr

/-- Initial scanner state: `buffer = ""`, `depth = 0`,
`in_string = False`, `escape = False` (ai_providers.py lines 137-140). -/
def gemInit : GemState := { buffer := [], depth := 0, inString := false, escape := false }

/-- Model of `buffer.find('{')` followed by `buffer[start_index:]`:
returns the buffer from its first `'{'`, or `none` when the buffer has
no `'{'` (`start_index == -1`). -/
def fromFirstBrace : List Char → Option (List Char)
  | [] => none
  | c :: rest => if c = '{' then some (c :: rest) else fromFirstBrace rest

/-- One iteration of the `for char in text_chunk` loop of
`GeminiProvider.generate_stream` (ai_providers.py lines 148-186):
append the character to the buffer, update the string/escape/depth
state, and on a depth-0 closing brace attempt to parse the accumulated
buffer, yielding the extracted fragments and resetting the buffer on
success (or when the buffer holds no `'{'`), keeping the buffer on a
`json.JSONDecodeError`. -/
def gemStep (extract : List Char → Option (List String)) (st : GemState) (c : Char) :
    GemState × List String :=
  let buf := st.buffer ++ [c]
  if st.inString then
    if st.escape then ({ st with buffer := buf, escape := false }, [])
    else if c = '\\' then ({ st with buffer := buf, escape := true }, [])
    else if c = '"' then ({ st with buffer := buf, inString := false }, [])
    else ({ st with buffer := buf }, [])
  else
    if c = '{' then ({ st with buffer := buf, depth := st.depth + 1 }, [])
    else if c = '}' then
      let d := st.depth - 1
      if d = 0 then
        match fromFirstBrace buf with
        | none => ({ st with buffer := [], depth := d }, [])
        | some jsonStr =>
          match extract jsonStr with
          | some texts => ({ st with buffer := [], depth := d }, texts)
          | none => ({ st with buffer := buf, depth := d }, [])
      else ({ st with buffer := buf, depth := d }, [])
    else if c = '"' then ({ st with buffer := buf, inString := true }, [])
    else ({ st with buffer := buf }, [])

/-- Run the scanner over a list of characters (one decoded chunk),
collecting the yielded fragments in order. -/
def gemRun (extract : List Char → Option (List String)) :
    GemState → List Char → GemState × List String
  | st, [] => (st, [])
  | st, c :: cs =>
    let p := gemStep extract st c
    let q := gemRun extract p.1 cs
    (q.1, p.2 ++ q.2)

/-- Run the scanner over a sequence of character chunks, threading the
state, as the `async for chunk in response.aiter_bytes()` loop does
after each chunk decodes successfully. -/
def gemRunChunks (extract : List Char → Option (List String)) :
    GemState → List (List Char) → GemState × List String
  | st, [] => (st, [])
  | st, ch :: chs =>
    let p := gemRun extract st ch
    let q := gemRunChunks extract p.1 chs
    (q.1, p.2 ++ q.2)

/-! ### UTF-8 decoding of byte chunks
`chunk.decode("utf-8")` with `except UnicodeDecodeError: continue`
(ai_providers.py lines 143-146): each byte chunk is decoded on its own;
a chunk that is not valid UTF-8 is dropped entirely.  `utf8Decode`
models Python's strict UTF-8 decoder: it rejects stray continuation
bytes, overlong encodings, surrogates and code points above U+10FFFF. -/

def isContByte (b : Nat) : Bool := 0x80 ≤ b && b ≤ 0xBF

/-- Decode one UTF-8 scalar: given the lead byte and the remaining
bytes, return the character and the bytes after its encoding, or
`none` on an invalid sequence (stray continuation byte, overlong
encoding, surrogate, or a value above U+10FFFF). -/
def utf8DecodeStep (b : Nat) (bs : List Nat) : Option (Char × List Nat) :=
  if b < 0x80 then some (Char.ofNat b, bs)
  else if b < 0xC2 then none
  else if b < 0xE0 then
    match bs with
    | b2 :: rest =>
      if isContByte b2 then
        some (Char.ofNat ((b - 0xC0) * 64 + (b2 - 0x80)), rest)
      else none
    | [] => none
  else if b < 0xF0 then
    match bs with
    | b2 :: b3 :: rest =>
      if ((if b = 0xE0 then 0xA0 else 0x80) ≤ b2 && b2 ≤ (if b = 0xED then 0x9F else 0xBF))
          && isContByte b3 then
        some (Char.ofNat ((b - 0xE0) * 4096 + (b2 - 0x80) * 64 + (b3 - 0x80)), rest)
      else none
    | _ => none
  else if b < 0xF5 then
    match bs with
    | b2 :: b3 :: b4 :: rest =>
      if ((if b = 0xF0 then 0x90 else 0x80) ≤ b2 && b2 ≤ (if b = 0xF4 then 0x8F else 0xBF))
          && isContByte b3 && isContByte b4 then
        some (Char.ofNat ((b - 0xF0) * 262144 + (b2 - 0x80) * 4096 + (b3 - 0x80) * 64 + (b4 - 0x80)),
          rest)
      else none
    | _ => none
  else none

/-- Fuel-driven decoding loop; the fuel only bounds the number of
characters produced and `utf8Decode` supplies enough for any input. -/
def utf8DecodeLoop : Nat → List Nat → Option (List Char)
  | _, [] => some []
  | 0, _ :: _ => none
  | fuel + 1, b :: bs =>
    match utf8DecodeStep b bs with
    | none => none
    | some (c, rest) => (utf8DecodeLoop fuel rest).map (fun cs => c :: cs)

/-- Model of Python's strict `bytes.decode("utf-8")`. -/
def utf8Decode (l : List Nat) : Option (List Char) := utf8DecodeLoop l.length l

/-- Standard UTF-8 encoding of one character (used to build concrete
byte payloads for the scanner). -/
def utf8EncodeChar (c : Char) : List Nat :=
  let n := c.toNat
  if n < 0x80 then [n]
  else if n < 0x800 then [0xC0 + n / 64, 0x80 + n % 64]
  else if n < 0x10000 then [0xE0 + n / 4096, 0x80 + (n / 64) % 64, 0x80 + n % 64]
  else [0xF0 + n / 262144, 0x80 + (n / 4096) % 64, 0x80 + (n / 64) % 64, 0x80 + n % 64]

def utf8Encode (cs : List Char) : List Nat := (cs.map utf8EncodeChar).flatten

/-- The byte-chunk loop of `GeminiProvider.generate_stream`
(ai_providers.py lines 142-146): decode each chunk independently,
skip a chunk whose decode fails (`except UnicodeDecodeError:
continue`), and feed the decoded characters to the scanner. -/
def gemRunByteChunks (extract : List Char → Option (List String)) :
    GemState → List (List Nat) → GemState × List String
  | st, [] => (st, [])
  | st, ch :: chs =>
    match utf8Decode ch with
    | none => gemRunByteChunks extract st chs
    | some cs =>
      let p := gemRun extract st cs
      let q := gemRunByteChunks extract p.1 chs
      (q.1, p.2 ++ q.2)

/-! ### A model of `json.loads` and the Gemini extraction walk
(ai_providers.py lines 157-173).  `json.loads` is Python standard
library code, not part of this repository: `JVal`/`jsonParse` model it
on the JSON grammar (objects, arrays, strings with the standard
escapes, numbers kept as raw lexemes, `true`/`false`/`null`,
whitespace, full consumption required; a lone `\u` surrogate is
rejected, where CPython would build an unpaired-surrogate string).
Duplicate object keys keep the last value, as Python dicts do. -/

inductive JVal where
  | null : JVal
  | bool (b : Bool) : JVal
  | num (raw : List Char) : JVal
  | str (s : List Char) : JVal
  | arr (xs : List JVal) : JVal
  | obj (fields : List (List Char × JVal)) : JVal

def jIsWs (c : Char) : Bool := c = ' ' || c = '\t' || c = '\n' || c = '\r'

def jSkipWs (cs : List Char) : List Char := cs.dropWhile jIsWs

def hexDigit (c : Char) : Option Nat :=
  let n := c.toNat
  if 48 ≤ n ∧ n ≤ 57 then some (n - 48)
  else if 97 ≤ n ∧ n ≤ 102 then some (n - 87)
  else if 65 ≤ n ∧ n ≤ 70 then some (n - 55)
  else none

/-- Parse the body of a JSON string after the opening quote; returns
the decoded characters and the input after the closing quote. -/
def parseStrBody : List Char → Option (List Char × List Char)
  | [] => none
  | c :: rest =>
    if c = '"' then some ([], rest)
    else if c = '\\' then
      match rest with
      | [] => none
      | e :: rest2 =>
        if e = '"' then (parseStrBody rest2).map (fun p => ('"' :: p.1, p.2))
        else if e = '\\' then (parseStrBody rest2).map (fun p => ('\\' :: p.1, p.2))
        else if e = '/' then (parseStrBody rest2).map (fun p => ('/' :: p.1, p.2))
        else if e = 'b' then (parseStrBody rest2).map (fun p => ('\x08' :: p.1, p.2))
        else if e = 'f' then (parseStrBody rest2).map (fun p => ('\x0c' :: p.1, p.2))
        else if e = 'n' then (parseStrBody rest2).map (fun p => ('\n' :: p.1, p.2))
        else if e = 'r' then (parseStrBody rest2).map (fun p => ('\r' :: p.1, p.2))
        else if e = 't' then (parseStrBody rest2).map (fun p => ('\t' :: p.1, p.2))
        else if e = 'u' then
          match rest2 with
          | h1 :: h2 :: h3 :: h4 :: rest3 =>
            match hexDigit h1, hexDigit h2, hexDigit h3, hexDigit h4 with
            | some d1, some d2, some d3, some d4 =>
              let n := d1 * 4096 + d2 * 256 + d3 * 16 + d4
              if 0xD800 ≤ n && n ≤ 0xDBFF then
                match rest3 with
                | '\\' :: 'u' :: g1 :: g2 :: g3 :: g4 :: rest4 =>
                  match hexDigit g1, hexDigit g2, hexDigit g3, hexDigit g4 with
                  | some e1, some e2, some e3, some e4 =>
                    let m := e1 * 4096 + e2 * 256 + e3 * 16 + e4
                    if 0xDC00 ≤ m && m ≤ 0xDFFF then
                      (parseStrBody rest4).map (fun p =>
                        (Char.ofNat (0x10000 + (n - 0xD800) * 1024 + (m - 0xDC00)) :: p.1, p.2))
                    else none
                  | _, _, _, _ => none
                | _ => none
              else if 0xDC00 ≤ n && n ≤ 0xDFFF then none
              else (parseStrBody rest3).map (fun p => (Char.ofNat n :: p.1, p.2))
            | _, _, _, _ => none
          | _ => none
        else none
    else (parseStrBody rest).map (fun p => (c :: p.1, p.2))

def jIsDigit (c : Char) : Bool := '0' ≤ c && c ≤ '9'

/-- Lex a JSON number starting at the head of the input, keeping the
raw lexeme (optional sign, digits, optional fraction and exponent). -/
def lexNumber (cs : List Char) : Option (List Char × List Char) :=
  let afterSign := fun (l : List Char) =>
    match l with
    | c :: rest => if c = '-' then (['-'], rest) else ([], l)
    | [] => ([], l)
  let p := afterSign cs
  let ds := p.2.takeWhile jIsDigit
  let rest1 := p.2.dropWhile jIsDigit
  if ds.isEmpty then none
  else
    let q :=
      match rest1 with
      | '.' :: r =>
        let fs := r.takeWhile jIsDigit
        if fs.isEmpty then none else some ('.' :: fs, r.dropWhile jIsDigit)
      | _ => some ([], rest1)
    match q with
    | none => none
    | some (frac, rest2) =>
      let z :=
        match rest2 with
        | c :: r =>
          if c = 'e' || c = 'E' then
            let sg := match r with
              | s :: r2 => if s = '+' || s = '-' then ([s], r2) else ([], r)
              | [] => ([], r)
            let es := sg.2.takeWhile jIsDigit
            if es.isEmpty then none else some (c :: sg.1 ++ es, sg.2.dropWhile jIsDigit)
          else some ([], rest2)
        | [] => some ([], rest2)
      match z with
      | none => none
      | some (ex, rest3) => some (p.1 ++ ds ++ frac ++ ex, rest3)

mutual

/-- Parse one JSON value at the head of the input (whitespace already
skipped); returns the value and the remaining input. -/
def parseValue : Nat → List Char → Option (JVal × List Char)
  | 0, _ => none
  | _ + 1, [] => none
  | fuel + 1, c :: rest =>
    if c = '{' then parseObj fuel (jSkipWs rest)
    else if c = '[' then parseArr fuel (jSkipWs rest)
    else if c = '"' then (parseStrBody rest).map (fun p => (JVal.str p.1, p.2))
    else if c = 't' then
      match rest with
      | 'r' :: 'u' :: 'e' :: r => some (JVal.bool true, r)
      | _ => none
    else if c = 'f' then
      match rest with
      | 'a' :: 'l' :: 's' :: 'e' :: r => some (JVal.bool false, r)
      | _ => none
    else if c = 'n' then
      match rest with
      | 'u' :: 'l' :: 'l' :: r => some (JVal.null, r)
      | _ => none
    else if c = '-' || jIsDigit c then
      (lexNumber (c :: rest)).map (fun p => (JVal.num p.1, p.2))
    else none

/-- Parse an object body after `{` (whitespace already skipped). -/
def parseObj : Nat → List Char → Option (JVal × List Char)
  | 0, _ => none
  | _ + 1, [] => none
  | fuel + 1, c :: rest =>
    if c = '}' then some (JVal.obj [], rest)
    else parseMembers fuel [] (c :: rest)

/-- Parse the members of a non-empty object: `"key": value`, separated
by commas, closed by `}` (the accumulator keeps insertion order). -/
def parseMembers : Nat → List (List Char × JVal) → List Char → Option (JVal × List Char)
  | 0, _, _ => none
  | _ + 1, _, [] => none
  | fuel + 1, acc, c :: rest =>
    if c = '"' then
      match parseStrBody rest with
      | none => none
      | some (key, rest2) =>
        match jSkipWs rest2 with
        | ':' :: rest3 =>
          match parseValue fuel (jSkipWs rest3) with
          | none => none
          | some (v, rest4) =>
            match jSkipWs rest4 with
            | ',' :: rest5 => parseMembers fuel (acc ++ [(key, v)]) (jSkipWs rest5)
            | '}' :: rest5 => some (JVal.obj (acc ++ [(key, v)]), rest5)
            | _ => none
        | _ => none
    else none

/-- Parse an array body after `[` (whitespace already skipped). -/
def parseArr : Nat → List Char → Option (JVal × List Char)
  | 0, _ => none
  | _ + 1, [] => none
  | fuel + 1, c :: rest =>
    if c = ']' then some (JVal.arr [], rest)
    else parseItems fuel [] (c :: rest)

/-- Parse the items of a non-empty array, separated by commas, closed
by `]`. -/
def parseItems : Nat → List JVal → List Char → Option (JVal × List Char)
  | 0, _, _ => none
  | _ + 1, _, [] => none
  | fuel + 1, acc, cs =>
    match parseValue fuel cs with
    | none => none
    | some (v, rest) =>
      match jSkipWs rest with
      | ',' :: rest2 => parseItems fuel (acc ++ [v]) (jSkipWs rest2)
      | ']' :: rest2 => some (JVal.arr (acc ++ [v]), rest2)
      | _ => none

end

/-- Model of `json.loads` on a character sequence: parse one value with
surrounding whitespace and require the whole input to be consumed
(anything less raises `json.JSONDecodeError`, modelled as `none`). -/
def jsonParse (cs : List Char) : Option JVal :=
  match parseValue (cs.length + 1) (jSkipWs cs) with
  | none => none
  | some (v, rest) => if (jSkipWs rest).isEmpty then some v else none

/-- Lookup of a Python dict key built by `json.loads`: duplicate keys
in the JSON text keep the last value. -/
def lookupField (k : List Char) : List (List Char × JVal) → Option JVal
  | [] => none
  | (k', v) :: rest =>
    match lookupField k rest with
    | some v2 => some v2
    | none => if k' = k then some v else none

/-- The walk over one parsed chunk's `candidates[i]["content"]["parts"][j]["text"]`
(ai_providers.py lines 163-168): a part with a string `"text"` field
yields that string.  A non-string `"text"` value (which the source
would yield as a raw non-`str` object) and shapes on which the
source's subscripting would raise `TypeError` extract nothing here;
both are outside the well-formed payloads the claims quantify over. -/
def partText (p : JVal) : List String :=
  match p with
  | JVal.obj fs =>
    match lookupField ("text".data) fs with
    | some (JVal.str s) => [String.mk s]
    | _ => []
  | _ => []

def candidateTexts (c : JVal) : List String :=
  match c with
  | JVal.obj fs =>
    match lookupField ("content".data) fs with
    | some (JVal.obj cfs) =>
      match lookupField ("parts".data) cfs with
      | some (JVal.arr ps) => (ps.map partText).flatten
      | _ => []
    | _ => []
  | _ => []

/-- Concrete instance of the scanner's `extract` parameter: the
`json.loads` model followed by the `candidates` walk of
ai_providers.py lines 161-168. -/
def extractGemini (cs : List Char) : Option (List String) :=
  match jsonParse cs with
  | none => none
  | some (JVal.obj fs) =>
    match lookupField ("candidates".data) fs with
    | some (JVal.arr cands) => some ((cands.map candidateTexts).flatten)
    | _ => some []
  | some _ => some []

/-! ### Provider `generate_stream` implementations (ai_providers.py)
Each provider is modelled as a function of the upstream HTTP response:
its status code and its body (byte chunks for Gemini's
concatenated-object framing, lines for the `aiter_lines`-based
providers).  The returned list is the sequence of strings the Python
async generator yields, in order.  The per-line `json.loads` plus
field walk of each SSE/NDJSON provider is abstracted as a parameter
`extractLine : String → List String` (returning the `content` /
`text_delta` / `response` fragments of that line, empty on
`json.JSONDecodeError`); the claims settled here depend only on the
status-code gates, which are translated literally. -/

/-- Error message of `GeminiProvider.generate_stream` line 134. -/
def geminiErrMsg (status : Nat) : String :=
  "Error al conectar con la API de Gemini: " ++ Nat.repr status

/-- `GeminiProvider.generate_stream` (ai_providers.py lines 129-186):
on a non-200 status yield one error message carrying the status code
and return; otherwise run the concatenated-object scanner over the
body's byte chunks. -/
def geminiGenerateStream (extract : List Char → Option (List String))
    (status : Nat) (body : List (List Nat)) : List String :=
  if status = 200 then (gemRunByteChunks extract gemInit body).2
  else [geminiErrMsg status]

/-- Error message of `SearchEngine._generate_with_custom_key`,
search_engine.py line 226: a fixed string with no status code. -/
def customKeyErrMsg : String := "Error al conectar con la API de Gemini (Clave Personal)."

/-- `SearchEngine._generate_with_custom_key` (search_engine.py lines
211-287): same scanner as `GeminiProvider.generate_stream`, but the
non-200 branch yields a fixed message without the status code. -/
def customKeyGenerateStream (extract : List Char → Option (List String))
    (status : Nat) (body : List (List Nat)) : List String :=
  if status = 200 then (gemRunByteChunks extract gemInit body).2
  else [customKeyErrMsg]

/-- The SSE loop of `OpenAIProvider.generate_stream` and
`CerebrasProvider.generate_stream` (ai_providers.py lines 264-283 and
456-475): keep lines starting with `"data: "`, stop at the `[DONE]`
sentinel, extract fragments from each payload. -/
def sseLoopWithDone (extractLine : String → List String) : List String → List String
  | [] => []
  | line :: rest =>
    if line.startsWith ("data: ") then
      let ds := line.drop 6
      if ds = "[DONE]" then []
      else extractLine ds ++ sseLoopWithDone extractLine rest
    else sseLoopWithDone extractLine rest

/-- The SSE loop of `AnthropicProvider.generate_stream` (ai_providers.py
lines 361-379): like the OpenAI loop but with no `[DONE]` sentinel
check. -/
def sseLoopNoDone (extractLine : String → List String) : List String → List String
  | [] => []
  | line :: rest =>
    if line.startsWith ("data: ") then
      extractLine (line.drop 6) ++ sseLoopNoDone extractLine rest
    else sseLoopNoDone extractLine rest

def openAIErrMsg (status : Nat) : String :=
  "Error al conectar con OpenAI: " ++ Nat.repr status

/-- `OpenAIProvider.generate_stream` (ai_providers.py lines 256-283). -/
def openAIGenerateStream (extractLine : String → List String)
    (status : Nat) (body : List String) : List String :=
  if status = 200 then sseLoopWithDone extractLine body
  else [openAIErrMsg status]

def anthropicErrMsg (status : Nat) : String :=
  "Error al conectar con Anthropic: " ++ Nat.repr status

/-- `AnthropicProvider.generate_stream` (ai_providers.py lines 353-379). -/
def anthropicGenerateStream (extractLine : String → List String)
    (status : Nat) (body : List String) : List String :=
  if status = 200 then sseLoopNoDone extractLine body
  else [anthropicErrMsg status]

def cerebrasErrMsg (status : Nat) : String :=
  "Error al conectar con Cerebras: " ++ Nat.repr status

/-- `CerebrasProvider.generate_stream` (ai_providers.py lines 448-475). -/
def cerebrasGenerateStream (extractLine : String → List String)
    (status : Nat) (body : List String) : List String :=
  if status = 200 then sseLoopWithDone extractLine body
  else [cerebrasErrMsg status]

/-- The line loop of `OllamaProvider.generate_stream` (ai_providers.py
lines 622-638): non-empty lines are parsed and their `response` field
yielded. -/
def ollamaLoop (extractLine : String → List String) : List String → List String
  | [] => []
  | line :: rest =>
    if line = "" then ollamaLoop extractLine rest
    else extractLine line ++ ollamaLoop extractLine rest

def ollamaNotFoundMsg (model : String) : String :=
  "Modelo '" ++ model ++ "' no encontrado. Ejecuta: ollama pull " ++ model

def ollamaErrMsg (status : Nat) : String :=
  "Error de Ollama: " ++ Nat.repr status ++ ". ¿Está Ollama ejecutándose?"

/-- `OllamaProvider.generate_stream` (ai_providers.py lines 601-638):
a 404 yields a model-not-found message (no status code in the text);
any other non-200 status yields an error message carrying the code. -/
def ollamaGenerateStream (extractLine : String → List String) (model : String)
    (status : Nat) (body : List String) : List String :=
  if status = 404 then [ollamaNotFoundMsg model]
  else if status = 200 then ollamaLoop extractLine body
  else [ollamaErrMsg status]

/-! Substring test used to state "the message carries the status
code": a plain character-list scan. -/

/-- `seqAt needle hay`: `needle` occurs at the head of `hay`. -/
def seqAt : List Char → List Char → Bool
  | [], _ => true
  | _ :: _, [] => false
  | a :: as, b :: bs => a = b && seqAt as bs

/-- `containsSeq needle hay`: `needle` occurs somewhere in `hay`. -/
def containsSeq (needle : List Char) : List Char → Bool
  | [] => needle.isEmpty
  | b :: rest => seqAt needle (b :: rest) || containsSeq needle rest

/-- A message carries a status code when the code's decimal rendering
occurs in the message text. -/
def carriesStatus (msg : String) (status : Nat) : Bool :=
  containsSeq (Nat.repr status).data msg.data

/-! ### `SearchEngine.hybrid_search` (search_engine.py lines 186-209)
Rows returned by `_semantic_search` carry `id`, `content`,
`chunk_metadata` and `similarity`; rows returned by `_keyword_search`
carry `rank` instead of `similarity`.  Metadata is an opaque type
parameter; scores are opaque to the fusion logic and modelled as
`Int`.  The re-ranker (`CrossEncoder.predict`) is an external model:
it is a parameter `predict` from feature pairs to scores, optional
because loading it may have failed at startup (search_engine.py lines
87-94). -/

structure SearchRow (M : Type) where
  id : Int
  content : String
  chunk_metadata : M
  similarity : Option Int
  rank : Option Int
deriving DecidableEq, Repr

/-- An output row of `hybrid_search`: the fused row, with the
`rerank_score` entry the re-ranking branch adds to the dict. -/
structure RankedRow (M : Type) where
  row : SearchRow M
  rerank_score : Option Int
deriving DecidableEq, Repr

/-- Python dict insert `m[k] = v` on an insertion-ordered association
list: overwrite in place when the key exists, append otherwise. -/
def dictInsert {M : Type} (m : List (Int × M)) (k : Int) (v : M) : List (Int × M) :=
  match m with
  | [] => [(k, v)]
  | (k', v') :: rest =>
    if k' = k then (k', v) :: rest else (k', v') :: dictInsert rest k v

def dictHasKey {M : Type} (m : List (Int × M)) (k : Int) : Bool :=
  match m with
  | [] => false
  | (k', _) :: rest => k' = k || dictHasKey rest k

/-- `combined_results_map = {res['id']: res for res in semantic_results}`
followed by the keyword loop that only adds ids not already present
(search_engine.py lines 192-195), then `list(...values())`. -/
def combineById {M : Type} (semantic keyword : List (SearchRow M)) : List (SearchRow M) :=
  let m1 := semantic.foldl (fun acc r => dictInsert acc r.id r) []
  let m2 := keyword.foldl (fun acc r => if dictHasKey acc r.id then acc else acc ++ [(r.id, r)]) m1
  m2.map Prod.snd

/-- Sort key used by `sorted(..., key=lambda x: x['rerank_score'],
reverse=True)`; every row in the sorted list has its score set by the
preceding zip. -/
def rrKey {M : Type} (r : RankedRow M) : Int := r.rerank_score.getD 0

/-- Stable descending insertion: place `x` before the first element
whose key is `≤ key x`, keeping earlier elements with `≥` keys (and in
particular equal keys) before it — the order Python's stable `sorted`
with `reverse=True` produces. -/
def insertDesc {M : Type} (x : RankedRow M) : List (RankedRow M) → List (RankedRow M)
  | [] => [x]
  | y :: ys => if rrKey y ≤ rrKey x then x :: y :: ys else y :: insertDesc x ys

/-- Stable sort by non-increasing `rerank_score`, modelling
`sorted(combined_results, key=lambda x: x['rerank_score'],
reverse=True)`. -/
def sortByRerankDesc {M : Type} : List (RankedRow M) → List (RankedRow M)
  | [] => []
  | x :: xs => insertDesc x (sortByRerankDesc xs)

/-- `SearchEngine.hybrid_search` (search_engine.py lines 186-209):
fuse the two result lists by id, return `[]` when the union is empty,
re-rank and sort descending when a re-ranker is configured (the
`predict` scores are zipped onto the rows, as the source's
`zip(combined_results, rerank_scores)` does), keep union order
otherwise, and truncate to `top_k`. -/
def hybrid_search {M : Type} (reranker : Option (List (String × String) → List Int))
    (query_text : String) (top_k : Nat)
    (semantic keyword : List (SearchRow M)) : List (RankedRow M) :=
  let combined := combineById semantic keyword
  if combined.isEmpty then []
  else
    match reranker with
    | some predict =>
      let features := combined.map (fun r => (query_text, r.content))
      let scores := predict features
      let scored := (combined.zip scores).map (fun p => RankedRow.mk p.1 (some p.2))
      (sortByRerankDesc scored).take top_k
    | none => (combined.map (fun r => RankedRow.mk r none)).take top_k

/-! ### The `/chat/search` endpoint's empty-result branch
(backend/app/routers/chat.py lines 42-62 and 97-159).  The streamed
response is modelled as a list of items: text fragments, the
`|||JSON_START|||` separator, and the final JSON metadata record (its
two fields, structurally).  The full pipeline result also counts the
calls made into `generate_answer` (hence into a provider stream
client). -/

inductive ChatItem where
  | text (s : String) : ChatItem
  | jsonSep : ChatItem
  | metadata (highlighted_source : Option String) (corrected_query : Option String) : ChatItem
deriving Repr

def ChatItem.isText : ChatItem → Bool
  | ChatItem.text _ => true
  | _ => false

/-- `ErrorMessages.NO_DOCUMENTS` (config.py line 58). -/
def NO_DOCUMENTS : String := "No encontré información relevante en los documentos disponibles."

/-- `ErrorMessages.NO_DOCUMENTS_SELECTED` (config.py line 59). -/
def NO_DOCUMENTS_SELECTED : String := "No pude encontrar una respuesta en los documentos seleccionados."

/-- The message choice of `_create_not_found_stream` (chat.py lines
52-58): a singular phrasing naming the file for exactly one source
file, the selected-documents message for several, the generic message
when the list is empty or absent (Python truthiness of
`source_files`). -/
def notFoundMessage : Option (List String) → String
  | some [f] => "Lo siento, no pude encontrar una respuesta en el documento '" ++ f ++
      "'. ¿Podrías reformular tu pregunta?"
  | some (_ :: _ :: _) => NO_DOCUMENTS_SELECTED
  | some [] => NO_DOCUMENTS
  | none => NO_DOCUMENTS

/-- `_create_not_found_stream` (chat.py lines 42-62): yields the
message, the separator, and the metadata record with
`highlighted_source = None` and `corrected_query = None`. -/
def create_not_found_stream (source_files : Option (List String)) : List ChatItem :=
  [ChatItem.text (notFoundMessage source_files), ChatItem.jsonSep, ChatItem.metadata none none]

/-- `sf.strip('"')`: remove leading and trailing double quotes
(chat.py line 103). -/
def stripQuotes (s : String) : String :=
  String.mk (((s.data.dropWhile (· = '"')).reverse.dropWhile (· = '"')).reverse)

/-- The source-file cleaning of the endpoint (chat.py lines 101-104):
`source_files` stays `None` unless `request.source_files` is truthy
(non-`None` and non-empty). -/
def cleanSourceFiles : Option (List String) → Option (List String)
  | none => none
  | some [] => none
  | some (f :: fs) => some ((f :: fs).map stripQuotes)

structure EndpointResult where
  stream : List ChatItem
  providerCalls : Nat
deriving Repr

/-- The search endpoint after hybrid search has produced
`search_results` (chat.py lines 117-159): with no results, return the
not-found stream without touching any provider; otherwise forward the
provider stream's fragments, then the separator and the metadata
record built from the highlighter.  `providerStream` abstracts the
fragments `generate_answer` would yield for the built prompt, and
`highlight` abstracts `_highlight_relevant_sentences` (its concrete
embedding is below); `providerCalls` counts entries into that
generation path. -/
def search_endpoint {M : Type} (search_results : List (SearchRow M))
    (request_source_files : Option (List String)) (query : String)
    (providerStream : List String) (highlight : String → String → String) : EndpointResult :=
  let source_files := cleanSourceFiles request_source_files
  if search_results.isEmpty then
    { stream := create_not_found_stream source_files, providerCalls := 0 }
  else
    let context := String.intercalate "\n---\n" (search_results.map (fun r => r.content))
    let generated := String.join providerStream
    { stream := providerStream.map ChatItem.text ++
        [ChatItem.jsonSep, ChatItem.metadata (some (highlight generated context)) (some query)],
      providerCalls := 1 }

/-! ### `AdvancedEmbeddingSystem` (backend/services/embedding_system.py)
The two-tier embedding cache.  Embedding vectors are an opaque type
parameter `V`.  `_get_cache_key` builds
`"emb:{model}:" + sha256(text)[:16]`; the hash is external, so the key
function is a parameter `getKey : String → String` (sha256 truncation
is collision-free in the source's intended use; theorems that need
this assume `getKey` injective on the given texts).  Redis is
modelled as an association list whose reads and writes always
succeed; the source logs and ignores Redis errors, and the TTL only
shortens the shared tier's lifetime, neither of which the settled
claims depend on.  `model.encode(texts, ...)` is the external
sentence-transformers batch embedding: per the external-interface
contract it embeds each text independently and deterministically, so
it is modelled by mapping a per-text function `embedFn` over the
batch. -/

/-- `LRU_CACHE_SIZE = 500` (embedding_system.py line 18). -/
def LRU_CACHE_SIZE : Nat := 500

structure EmbSys (V : Type) where
  lruCache : List (String × V)
  lruKeys : List String
  redis : List (String × V)
  redisEnabled : Bool

/-- Association-list lookup (first match; the cache operations keep
keys unique). -/
def lookupA {V : Type} (k : String) : List (String × V) → Option V
  | [] => none
  | (k', v) :: rest => if k' = k then some v else lookupA k rest

/-- `del m[k]`: remove the entry with key `k`. -/
def removeA {V : Type} (k : String) : List (String × V) → List (String × V)
  | [] => []
  | (k', v) :: rest => if k' = k then rest else (k', v) :: removeA k rest

/-- `m[k] = v` on an insertion-ordered association list: overwrite in
place, or append a new entry. -/
def setA {V : Type} (k : String) (v : V) : List (String × V) → List (String × V)
  | [] => [(k, v)]
  | (k', v') :: rest => if k' = k then (k', v) :: rest else (k', v') :: setA k v rest

/-- `_lru_get` (embedding_system.py lines 71-79): on a hit, move the
key to the back of the recency list (`remove` then `append`) and
return the cached vector; on a miss return `None` without mutation. -/
def lru_get {V : Type} (s : EmbSys V) (key : String) : Option V × EmbSys V :=
  match lookupA key s.lruCache with
  | some v => (some v, { s with lruKeys := s.lruKeys.erase key ++ [key] })
  | none => (none, s)

/-- `_lru_set` (embedding_system.py lines 81-89): a new key first
evicts the front of the recency list when the cache is full
(`pop(0)` + `del`), then is appended; the value is stored
unconditionally (an existing key is overwritten in place and its
recency is not refreshed). -/
def lru_set {V : Type} (s : EmbSys V) (key : String) (v : V) : EmbSys V :=
  if (lookupA key s.lruCache).isSome then
    { s with lruCache := setA key v s.lruCache }
  else if LRU_CACHE_SIZE ≤ s.lruKeys.length then
    match s.lruKeys with
    | [] => { s with lruKeys := [key], lruCache := setA key v s.lruCache }
    | oldest :: restKeys =>
      { s with lruKeys := restKeys ++ [key],
               lruCache := setA key v (removeA oldest s.lruCache) }
  else
    { s with lruKeys := s.lruKeys ++ [key], lruCache := setA key v s.lruCache }

/-- `_get_cached_embedding` (embedding_system.py lines 91-115): LRU
first; on an LRU miss consult Redis when enabled and promote a hit
into the LRU. -/
def get_cached_embedding {V : Type} (getKey : String → String) (s : EmbSys V)
    (text : String) : Option V × EmbSys V :=
  let key := getKey text
  match lru_get s key with
  | (some v, s') => (some v, s')
  | (none, s') =>
    if s'.redisEnabled then
      match lookupA key s'.redis with
      | some v => (some v, lru_set s' key v)
      | none => (none, s')
    else (none, s')

/-- `_cache_embedding` (embedding_system.py lines 117-135): store in
the LRU, and in Redis when enabled. -/
def cache_embedding {V : Type} (getKey : String → String) (s : EmbSys V)
    (text : String) (v : V) : EmbSys V :=
  let s1 := lru_set s (getKey text) v
  if s1.redisEnabled then { s1 with redis := setA (getKey text) v s1.redis }
  else s1

/-- Phase 1 of `create_embeddings` (embedding_system.py lines 156-164):
look every text up in the cache in order, producing the per-position
hit values (`None` for misses), the list of texts to compute, and the
state after all lookups. -/
def embedPhase1 {V : Type} (getKey : String → String) (s : EmbSys V) :
    List String → List (Option V) × List String × EmbSys V
  | [] => ([], [], s)
  | t :: ts =>
    let p := get_cached_embedding getKey s t
    let q := embedPhase1 getKey p.2 ts
    match p.1 with
    | some v => (some v :: q.1, q.2.1, q.2.2)
    | none => (none :: q.1, t :: q.2.1, q.2.2)

/-- The caching loop of phase 2 (embedding_system.py lines 179-181):
`_cache_embedding(texts[idx], embedding)` for each computed text in
order. -/
def cacheAll {V : Type} (getKey : String → String) (embedFn : String → V) :
    EmbSys V → List String → EmbSys V
  | s, [] => s
  | s, t :: ts => cacheAll getKey embedFn (cache_embedding getKey s t (embedFn t)) ts

/-- Writing the batch-computed embeddings back into the `results`
slots left as `None` by phase 1, in order — the
`zip(indices_to_compute, new_embeddings)` loop. -/
def fillResults {V : Type} : List (Option V) → List V → List (Option V)
  | [], _ => []
  | some v :: rs, vs => some v :: fillResults rs vs
  | none :: rs, [] => none :: fillResults rs []
  | none :: rs, v :: vs => some v :: fillResults rs vs

structure EmbCallResult (V : Type) where
  results : List (Option V)
  state : EmbSys V
  computed : List String

/-- `create_embeddings` (embedding_system.py lines 137-185): empty
input returns `[]`; otherwise phase 1 collects cache hits and misses,
and when there are misses the batch computes them
(`model.encode(texts_to_compute)`, modelled as `computed.map embedFn`)
and caches them.  `results` is the source's `results` list (its slots
are `Optional`: the claims prove no `None` survives); `computed` is
`texts_to_compute`, whose emptiness decides whether the embedding
model is invoked at all. -/
def create_embeddings {V : Type} (getKey : String → String) (embedFn : String → V)
    (s : EmbSys V) (texts : List String) : EmbCallResult V :=
  if texts.isEmpty then ⟨[], s, []⟩
  else
    let p := embedPhase1 getKey s texts
    let misses := p.2.1
    if misses.isEmpty then ⟨p.1, p.2.2, misses⟩
    else ⟨fillResults p.1 (misses.map embedFn), cacheAll getKey embedFn p.2.2 misses, misses⟩

/-! Operation sequences on the in-process LRU tier, for the capacity
and eviction-policy claims. -/

inductive LruOp (V : Type) where
  | get (k : String) : LruOp V
  | set (k : String) (v : V) : LruOp V

def applyLruOp {V : Type} (s : EmbSys V) : LruOp V → EmbSys V
  | LruOp.get k => (lru_get s k).2
  | LruOp.set k v => lru_set s k v

def applyLruOps {V : Type} : EmbSys V → List (LruOp V) → EmbSys V
  | s, [] => s
  | s, op :: ops => applyLruOps (applyLruOp s op) ops

/-- The LRU tier's state right after `__init__` (embedding_system.py
lines 47-48): empty dict, empty recency list. -/
def embInit (V : Type) : EmbSys V := ⟨[], [], [], false⟩

/-! ### `SearchEngine._highlight_relevant_sentences`
(search_engine.py lines 96-109).  The two regular expressions are
modelled on their ASCII semantics (`\s` as ASCII whitespace, `\w` as
ASCII alphanumerics plus underscore; the settled claims are not
sensitive to the extra Unicode classes).  The float comparison
`len(inter) / len(answer_words) > 0.4` is exact at these magnitudes
and is integerized as `5 * |inter| > 2 * |answer_words|`. -/

def pyIsWs (c : Char) : Bool :=
  c = ' ' || c = '\t' || c = '\n' || c = '\r' || c = '\x0b' || c = '\x0c'

def isSentEnd (c : Char) : Bool := c = '.' || c = '!' || c = '?'

/-- `re.split(r'(?<=[.!?])\s+', context)`: cut at every maximal
whitespace run immediately preceded by sentence-ending punctuation.
When `skipping` is true the scanner is inside the matched whitespace
run (the next token has been started empty); otherwise `cur` is the
token being accumulated. -/
def splitSentencesGo : Bool → List Char → List Char → List (List Char)
  | _, cur, [] => [cur]
  | true, cur, c :: rest =>
    if pyIsWs c then splitSentencesGo true cur rest
    else splitSentencesGo false (cur ++ [c]) rest
  | false, cur, c :: rest =>
    if pyIsWs c && (match cur.getLast? with | some p => isSentEnd p | none => false) then
      cur :: splitSentencesGo true [] rest
    else splitSentencesGo false (cur ++ [c]) rest

def splitSentences (cs : List Char) : List (List Char) := splitSentencesGo false [] cs

def isWordChar (c : Char) : Bool := c.isAlphanum || c = '_'

/-- Maximal runs of word characters, for
`re.findall(r'\b\w{4,}\b', ...)`: a match of that pattern is exactly a
maximal run of length `≥ 4`. -/
def wordRunsGo (cur : List Char) : List Char → List (List Char)
  | [] => if cur.isEmpty then [] else [cur]
  | c :: rest =>
    if isWordChar c then wordRunsGo (cur ++ [c]) rest
    else if cur.isEmpty then wordRunsGo [] rest
    else cur :: wordRunsGo [] rest

def wordRuns (cs : List Char) : List (List Char) := wordRunsGo [] cs

/-- `set(word.lower() for word in re.findall(r'\b\w{4,}\b', s))`,
modelled as a deduplicated list. -/
def wordSet (cs : List Char) : List String :=
  (((wordRuns cs).filter (fun r => 4 ≤ r.length)).map
    (fun r => String.mk (r.map Char.toLower))).dedup

/-- `sentence.strip()` on ASCII whitespace. -/
def stripWs (cs : List Char) : List Char :=
  ((cs.dropWhile pyIsWs).reverse.dropWhile pyIsWs).reverse

/-- Size of `sentence_words.intersection(answer_words)` for the two
deduplicated word lists. -/
def interCount (sw aw : List String) : Nat := (sw.filter (fun w => w ∈ aw)).length

/-- `_highlight_relevant_sentences` (search_engine.py lines 96-109):
split the context into sentences, mark a sentence (wrap its stripped
text in `<strong>` tags) when the answer's content-word set is
non-empty and the overlap ratio exceeds `0.4`, and join the stripped
sentences with single spaces.  The emptiness guard is the source's
`if answer_words and ...` short-circuit, which prevents the
`ZeroDivisionError` the ratio would otherwise raise. -/
def highlight_relevant_sentences (answer context : String) : String :=
  let context_sentences := splitSentences context.data
  let answer_words := wordSet answer.data
  let parts := context_sentences.map (fun sent =>
    let sentence_words := wordSet sent
    if answer_words ≠ [] ∧ 5 * interCount sentence_words answer_words > 2 * answer_words.length then
      "<strong>" ++ String.mk (stripWs sent) ++ "</strong>"
    else
      String.mk (stripWs sent))
  String.intercalate " " parts

/-! ### `ProviderFactory.get_provider` (ai_providers.py lines 651-670). -/

inductive ProviderId where
  | gemini : ProviderId
  | openai : ProviderId
  | anthropic : ProviderId
  | cerebras : ProviderId
  | ollama : ProviderId
deriving DecidableEq, Repr

/-- The `_providers` registry dict (ai_providers.py lines 654-660). -/
def providerRegistry : List (String × ProviderId) :=
  [("gemini", ProviderId.gemini), ("openai", ProviderId.openai),
   ("anthropic", ProviderId.anthropic), ("cerebras", ProviderId.cerebras),
   ("ollama", ProviderId.ollama)]

def lookupReg (k : String) : List (String × ProviderId) → Option ProviderId
  | [] => none
  | (k', v) :: rest => if k' = k then some v else lookupReg k rest

/-- Python's `str.lower`, modelled as a per-character lowercase map
(its ASCII behaviour; the registry keys it is compared against are all
ASCII). -/
def pyLower (s : String) : String := String.mk (s.data.map Char.toLower)

/-- `ProviderFactory.get_provider` (ai_providers.py lines 662-670):
`_providers.get(provider_id.lower())`, defaulting to the Gemini
provider when the id is unknown. -/
def get_provider (provider_id : String) : ProviderId :=
  match lookupReg (pyLower provider_id) providerRegistry with
  | some p => p
  | none => ProviderId.gemini

/-- Well-formedness of the LRU tier, as `__init__` establishes and the
two LRU operations maintain: the recency list is duplicate-free, the
cache dict has duplicate-free keys, dict keys and recency list hold
the same keys, and the recency list is within capacity. -/
def WF {V : Type} (s : EmbSys V) : Prop :=
  s.lruKeys.Nodup ∧ (s.lruCache.map Prod.fst).Nodup ∧
  (∀ k, k ∈ s.lruCache.map Prod.fst ↔ k ∈ s.lruKeys) ∧
  s.lruKeys.length ≤ LRU_CACHE_SIZE

/-- Distinct cache keys `"a"`, `"aa"`, `"aaa"`, ... used to drive the
LRU to capacity in concrete scenarios. -/
def repKey (i : Nat) : String := String.mk (List.replicate i 'a')

def lruRest498 : List String := (List.range 498).map (fun i => repKey (i + 2))

/-- Proof-internal invariant for the two-phase `create_embeddings`
run.  `B` is the batch's (deduplicated) key set, `keys0` the recency
list of the state the call started from, `P` the batch keys already
guaranteed cached, and `valOf` the value each such key must hold.
The recency list splits into a front segment of pre-existing
non-`P` keys (the only eviction victims) followed by a segment
containing exactly the `P` keys. -/
def BatchInv {V : Type} (B keys0 P : List String) (valOf : String → Option V)
    (s : EmbSys V) : Prop :=
  s.redisEnabled = false ∧ WF s ∧ P.Nodup ∧ (∀ k ∈ P, k ∈ B) ∧
  (∃ pre post, s.lruKeys = pre ++ post ∧ (∀ k ∈ pre, k ∉ P) ∧ (∀ k ∈ pre, k ∈ keys0) ∧
    (∀ k ∈ post, k ∈ P) ∧ (∀ k ∈ P, k ∈ post)) ∧
  (∀ k ∈ P, lookupA k s.lruCache = valOf k)

/-- 501 distinct texts, one more than the LRU capacity. -/
def texts501 : List String := (List.range 501).map repKey

/-! Concrete payload used to exercise the concatenated-object parser:
one Gemini-style response object whose text fragment is the non-ASCII
character `á` (a two-byte UTF-8 sequence). -/

def gemPayload : String :=
  "\x7b\"candidates\":[\x7b\"content\":\x7b\"parts\":[\x7b\"text\":\"á\"\x7d]\x7d\x7d]\x7d"

def gemPayloadBytes : List Nat := utf8Encode gemPayload.data

/-- A byte split of `gemPayloadBytes` that lands in the middle of the
two-byte character: the first chunk ends with the lead byte `0xC3`. -/
def gemChunkMidA : List Nat := gemPayloadBytes.take 46

def gemChunkMidB : List Nat := gemPayloadBytes.drop 46

/-- A byte split of `gemPayloadBytes` at a character boundary. -/
def gemChunkOkA : List Nat := gemPayloadBytes.take 10

def gemChunkOkB : List Nat := gemPayloadBytes.drop 10

/-! Concrete data for exercising `hybrid_search`: the end-to-end
example of the specification (one chunk found by both sub-searches). -/

def exRowSem : SearchRow Unit :=
  { id := 1, content := "X is a technology.", chunk_metadata := (), similarity := some 9,
    rank := none }

def exRowKw : SearchRow Unit :=
  { id := 1, content := "X is a technology.", chunk_metadata := (), similarity := none,
    rank := some 8 }

def exPredict : List (String × String) → List Int := fun l => l.map (fun _ => 95)

/-! ## Theorems -/

theorem gemRun_append (extract : List Char → Option (List String)) (st : GemState)
    (xs ys : List Char) :
    gemRun extract st (xs ++ ys) =
      ((gemRun extract (gemRun extract st xs).1 ys).1,
       (gemRun extract st xs).2 ++ (gemRun extract (gemRun extract st xs).1 ys).2) := by
  induction xs generalizing st with
  | nil => simp [gemRun]
  | cons c cs ih => simp [gemRun, ih, List.append_assoc]

theorem gemRunChunks_eq_flatten (extract : List Char → Option (List String)) (st : GemState)
    (chs : List (List Char)) :
    gemRunChunks extract st chs = gemRun extract st chs.flatten := by
  induction chs generalizing st with
  | nil => simp [gemRunChunks, gemRun]
  | cons ch chs ih => simp [gemRunChunks, List.flatten_cons, gemRun_append, ih]

set_option maxHeartbeats 2000000 in
theorem utf8DecodeStep_append {b : Nat} {bs : List Nat} {c : Char} {rest : List Nat}
    (h : utf8DecodeStep b bs = some (c, rest)) (ys : List Nat) :
    utf8DecodeStep b (bs ++ ys) = some (c, rest ++ ys) := by
  rcases bs with _ | ⟨b2, _ | ⟨b3, _ | ⟨b4, tl⟩⟩⟩ <;>
    simp only [utf8DecodeStep, List.cons_append, List.nil_append] at h ⊢ <;>
    split_ifs at h ⊢ <;>
    first
      | exact Option.noConfusion h
      | (rw [Option.some.injEq, Prod.mk.injEq] at h
         obtain ⟨h1, h2⟩ := h
         subst h1; subst h2; rfl)

theorem utf8DecodeStep_length {b : Nat} {bs : List Nat} {c : Char} {rest : List Nat}
    (h : utf8DecodeStep b bs = some (c, rest)) : rest.length ≤ bs.length := by
  rcases bs with _ | ⟨b2, _ | ⟨b3, _ | ⟨b4, tl⟩⟩⟩ <;>
    simp only [utf8DecodeStep] at h <;>
    split_ifs at h <;>
    simp_all <;> omega

theorem utf8DecodeLoop_fuel : ∀ (fuel fuel' : Nat) (l : List Nat),
    l.length ≤ fuel → l.length ≤ fuel' →
    utf8DecodeLoop fuel l = utf8DecodeLoop fuel' l := by
  intro fuel
  induction fuel with
  | zero =>
    intro fuel' l h _
    cases l with
    | nil => cases fuel' <;> rfl
    | cons b bs => simp at h
  | succ f ih =>
    intro fuel' l h h'
    cases l with
    | nil => cases fuel' <;> rfl
    | cons b bs =>
      cases fuel' with
      | zero => simp at h'
      | succ f' =>
        simp only [utf8DecodeLoop]
        cases hstep : utf8DecodeStep b bs with
        | none => rfl
        | some p =>
          obtain ⟨c, rest⟩ := p
          have hlen := utf8DecodeStep_length hstep
          have hbs : bs.length ≤ f := Nat.le_of_succ_le_succ (by simpa using h)
          have hbs' : bs.length ≤ f' := Nat.le_of_succ_le_succ (by simpa using h')
          show Option.map (fun cs => c :: cs) (utf8DecodeLoop f rest) =
            Option.map (fun cs => c :: cs) (utf8DecodeLoop f' rest)
          rw [ih f' rest (le_trans hlen hbs) (le_trans hlen hbs')]

theorem utf8DecodeLoop_append : ∀ (fuel : Nat) (xs : List Nat) (cs : List Char),
    xs.length ≤ fuel → utf8DecodeLoop fuel xs = some cs →
    ∀ (ys : List Nat) (ds : List Char), utf8DecodeLoop ys.length ys = some ds →
    utf8DecodeLoop (xs ++ ys).length (xs ++ ys) = some (cs ++ ds) := by
  intro fuel
  induction fuel with
  | zero =>
    intro xs cs h hx ys ds hy
    cases xs with
    | nil =>
      simp only [utf8DecodeLoop, Option.some.injEq] at hx
      subst hx
      simpa using hy
    | cons b bs => simp at h
  | succ f ih =>
    intro xs cs h hx ys ds hy
    cases xs with
    | nil =>
      simp only [utf8DecodeLoop, Option.some.injEq] at hx
      subst hx
      simpa using hy
    | cons b bs =>
      simp only [utf8DecodeLoop] at hx
      cases hstep : utf8DecodeStep b bs with
      | none => rw [hstep] at hx; simp at hx
      | some p =>
        obtain ⟨c, rest⟩ := p
        rw [hstep] at hx
        simp only [Option.map_eq_some'] at hx
        obtain ⟨cs', hcs', hcons⟩ := hx
        subst hcons
        have hlen := utf8DecodeStep_length hstep
        have hbs : bs.length ≤ f := Nat.le_of_succ_le_succ (by simpa using h)
        have happ := ih rest cs' (le_trans hlen hbs) hcs' ys ds hy
        have hstep' := utf8DecodeStep_append hstep ys
        simp only [List.cons_append, utf8DecodeLoop, List.append_eq]
        have hfuel2 : utf8DecodeLoop (bs ++ ys).length (rest ++ ys) =
            utf8DecodeLoop ((rest ++ ys).length) (rest ++ ys) := by
          apply utf8DecodeLoop_fuel
          · simp only [List.length_append]
            omega
          · exact le_rfl
        rw [hstep']
        show Option.map (fun cs => c :: cs) (utf8DecodeLoop (bs ++ ys).length (rest ++ ys)) =
          some (c :: (cs' ++ ds))
        rw [hfuel2, happ]
        rfl

theorem utf8Decode_append (xs : List Nat) (cs : List Char) (hx : utf8Decode xs = some cs)
    (ys : List Nat) (ds : List Char) (hy : utf8Decode ys = some ds) :
    utf8Decode (xs ++ ys) = some (cs ++ ds) :=
  utf8DecodeLoop_append xs.length xs cs le_rfl hx ys ds hy

theorem gemRunByteChunks_all_decode (extract : List Char → Option (List String)) :
    ∀ (chunks : List (List Nat)) (st : GemState),
    (∀ ch ∈ chunks, (utf8Decode ch).isSome) →
    ∃ cs, utf8Decode chunks.flatten = some cs ∧
      gemRunByteChunks extract st chunks = gemRun extract st cs := by
  intro chunks
  induction chunks with
  | nil =>
    intro st _
    exact ⟨[], rfl, by simp [gemRunByteChunks, gemRun]⟩
  | cons ch chs ih =>
    intro st h
    obtain ⟨cs0, hcs0⟩ := Option.isSome_iff_exists.mp (h ch (by simp))
    obtain ⟨cs1, h1, h2⟩ := ih (gemRun extract st cs0).1 (fun c hc => h c (by simp [hc]))
    refine ⟨cs0 ++ cs1, ?_, ?_⟩
    · rw [List.flatten_cons]
      exact utf8Decode_append ch cs0 hcs0 chs.flatten cs1 h1
    · simp [gemRunByteChunks, hcs0, h2, gemRun_append]

/-- C1 fails as stated for byte-level chunking: the same payload
(`gemPayloadBytes`, one Gemini response object carrying the text
`"á"`) yields its fragment when delivered in a single chunk, but
yields nothing when split between the two bytes of the `á` character,
because each chunk is UTF-8-decoded on its own and an undecodable
chunk is dropped (`except UnicodeDecodeError: continue`). -/
theorem C1_counterexample :
    gemChunkMidA ++ gemChunkMidB = gemPayloadBytes ∧
    (gemRunByteChunks extractGemini gemInit [gemPayloadBytes]).2 = ["á"] ∧
    (gemRunByteChunks extractGemini gemInit [gemChunkMidA, gemChunkMidB]).2 = [] := by
  refine ⟨by decide, by decide, by decide⟩

/-- C1 (amended): for every extraction function and every way of
splitting a payload into byte chunks that are each individually valid
UTF-8 (splits at character boundaries — in particular every split of
an ASCII payload), the concatenated-object stream parser produces
exactly the same scanner state and the same sequence of extracted
text fragments as when the payload is delivered in a single chunk. -/
theorem C1_chunk_invariance (extract : List Char → Option (List String))
    (chunks : List (List Nat)) (h : ∀ ch ∈ chunks, (utf8Decode ch).isSome) :
    gemRunByteChunks extract gemInit chunks =
      gemRunByteChunks extract gemInit [chunks.flatten] := by
  obtain ⟨cs, h1, h2⟩ := gemRunByteChunks_all_decode extract chunks gemInit h
  rw [h2]
  simp [gemRunByteChunks, h1]

/-- Witness for C1 at a concrete character-boundary split of the
payload. -/
theorem C1_witness :
    (∀ ch ∈ [gemChunkOkA, gemChunkOkB], (utf8Decode ch).isSome) ∧
    gemRunByteChunks extractGemini gemInit [gemChunkOkA, gemChunkOkB] =
      gemRunByteChunks extractGemini gemInit [([gemChunkOkA, gemChunkOkB] : List (List Nat)).flatten] :=
  ⟨by decide, C1_chunk_invariance extractGemini [gemChunkOkA, gemChunkOkB] (by decide)⟩

section HybridSearch

variable {M : Type}

theorem dictInsert_fst (m : List (Int × SearchRow M)) (k : Int) (v : SearchRow M) :
    (dictInsert m k v).map Prod.fst =
      if k ∈ m.map Prod.fst then m.map Prod.fst else m.map Prod.fst ++ [k] := by
  induction m with
  | nil => simp [dictInsert]
  | cons p rest ih =>
    obtain ⟨k', v'⟩ := p
    by_cases hk : k' = k
    · subst hk
      simp [dictInsert]
    · simp only [dictInsert, if_neg hk, List.map_cons, List.mem_cons, ih]
      by_cases hmem : k ∈ rest.map Prod.fst
      · simp [hmem, Ne.symm hk]
      · simp [hmem, Ne.symm hk]

theorem dictInsert_fst_nodup {m : List (Int × SearchRow M)} (h : (m.map Prod.fst).Nodup)
    (k : Int) (v : SearchRow M) : ((dictInsert m k v).map Prod.fst).Nodup := by
  rw [dictInsert_fst]
  by_cases hmem : k ∈ m.map Prod.fst
  · simpa [hmem] using h
  · simp [hmem, List.nodup_append, h]

theorem dictInsert_key_mem (m : List (Int × SearchRow M)) (k : Int) (v : SearchRow M) :
    k ∈ (dictInsert m k v).map Prod.fst := by
  rw [dictInsert_fst]
  by_cases hmem : k ∈ m.map Prod.fst <;> simp [hmem]

theorem dictInsert_key_mono {m : List (Int × SearchRow M)} {k' : Int}
    (h : k' ∈ m.map Prod.fst) (k : Int) (v : SearchRow M) :
    k' ∈ (dictInsert m k v).map Prod.fst := by
  rw [dictInsert_fst]
  by_cases hmem : k ∈ m.map Prod.fst <;> simp [hmem, h]

theorem dictInsert_mem {m : List (Int × SearchRow M)} {k : Int} {v : SearchRow M}
    {p : Int × SearchRow M} (h : p ∈ dictInsert m k v) : p ∈ m ∨ p = (k, v) := by
  induction m with
  | nil => simpa [dictInsert] using h
  | cons q rest ih =>
    obtain ⟨k', v'⟩ := q
    by_cases hk : k' = k
    · subst hk
      rcases (by simpa [dictInsert] using h : p = (k', v) ∨ p ∈ rest) with h1 | h1
      · right; exact h1
      · left; simp [h1]
    · rcases (by simpa [dictInsert, hk] using h : p = (k', v') ∨ p ∈ dictInsert rest k v)
        with h1 | h1
      · left; simp [h1]
      · rcases ih h1 with h2 | h2
        · left; simp [h2]
        · right; exact h2

theorem dictHasKey_iff (m : List (Int × SearchRow M)) (k : Int) :
    dictHasKey m k = true ↔ k ∈ m.map Prod.fst := by
  induction m with
  | nil => simp [dictHasKey]
  | cons p rest ih =>
    obtain ⟨k', v'⟩ := p
    simp only [dictHasKey, List.map_cons, List.mem_cons, Bool.or_eq_true, decide_eq_true_eq, ih]
    constructor
    · rintro (h | h)
      · exact Or.inl h.symm
      · exact Or.inr h
    · rintro (h | h)
      · exact Or.inl h.symm
      · exact Or.inr h

/-- The semantic fold `{res['id']: res for res in semantic_results}`
keeps key lists duplicate-free, entries keyed by their own id and
drawn from the accumulator or the semantic rows, and contains a key
for every semantic row. -/
theorem semFold_inv (sem : List (SearchRow M)) :
    ∀ (m : List (Int × SearchRow M)),
    ((m.map Prod.fst).Nodup →
      (((sem.foldl (fun acc r => dictInsert acc r.id r) m).map Prod.fst).Nodup)) ∧
    (∀ p ∈ sem.foldl (fun acc r => dictInsert acc r.id r) m,
      p ∈ m ∨ (p.2 ∈ sem ∧ p.1 = p.2.id)) ∧
    (∀ k ∈ m.map Prod.fst,
      k ∈ (sem.foldl (fun acc r => dictInsert acc r.id r) m).map Prod.fst) ∧
    (∀ r ∈ sem, r.id ∈ (sem.foldl (fun acc r => dictInsert acc r.id r) m).map Prod.fst) := by
  induction sem with
  | nil => exact fun m => ⟨fun h => h, fun p hp => Or.inl hp, fun k hk => hk, by simp⟩
  | cons r rest ih =>
    intro m
    refine ⟨?_, ?_, ?_, ?_⟩
    · intro h
      exact (ih (dictInsert m r.id r)).1 (dictInsert_fst_nodup h r.id r)
    · intro p hp
      rcases (ih (dictInsert m r.id r)).2.1 p hp with h1 | h1
      · rcases dictInsert_mem h1 with h2 | h2
        · exact Or.inl h2
        · right
          subst h2
          simp
      · right
        exact ⟨List.mem_cons_of_mem r h1.1, h1.2⟩
    · intro k hk
      exact (ih (dictInsert m r.id r)).2.2.1 k (dictInsert_key_mono hk r.id r)
    · intro r' hr'
      rcases List.mem_cons.mp hr' with h1 | h1
      · subst h1
        exact (ih (dictInsert m r'.id r')).2.2.1 r'.id (dictInsert_key_mem m r'.id r')
      · exact (ih (dictInsert m r.id r)).2.2.2 r' h1

/-- The keyword fold only appends rows whose id is not yet a key. -/
theorem kwFold_inv (kw : List (SearchRow M)) :
    ∀ (m : List (Int × SearchRow M)),
    ((m.map Prod.fst).Nodup →
      (((kw.foldl (fun acc r =>
          if dictHasKey acc r.id then acc else acc ++ [(r.id, r)]) m).map Prod.fst).Nodup)) ∧
    (∀ p ∈ kw.foldl (fun acc r => if dictHasKey acc r.id then acc else acc ++ [(r.id, r)]) m,
      p ∈ m ∨ (p.2 ∈ kw ∧ p.1 = p.2.id ∧ p.1 ∉ m.map Prod.fst)) := by
  induction kw with
  | nil => exact fun m => ⟨fun h => h, fun p hp => Or.inl hp⟩
  | cons r rest ih =>
    intro m
    by_cases hk : dictHasKey m r.id
    · refine ⟨?_, ?_⟩
      · intro h
        simpa [hk] using (ih m).1 h
      · intro p hp
        rcases (ih m).2 p (by simpa [hk] using hp) with h1 | h1
        · exact Or.inl h1
        · exact Or.inr ⟨List.mem_cons_of_mem r h1.1, h1.2.1, h1.2.2⟩
    · have hnot : r.id ∉ m.map Prod.fst := fun hmem => hk ((dictHasKey_iff m r.id).mpr hmem)
      refine ⟨?_, ?_⟩
      · intro h
        have : ((m ++ [(r.id, r)]).map Prod.fst).Nodup := by
          simp [List.nodup_append, h, hnot]
        simpa [hk] using (ih (m ++ [(r.id, r)])).1 this
      · intro p hp
        rcases (ih (m ++ [(r.id, r)])).2 p (by simpa [hk] using hp) with h1 | h1
        · rcases List.mem_append.mp h1 with h2 | h2
          · exact Or.inl h2
          · right
            have : p = (r.id, r) := by simpa using h2
            subst this
            simp [hnot]
        · right
          refine ⟨List.mem_cons_of_mem r h1.1, h1.2.1, fun hmem => h1.2.2 ?_⟩
          simp [hmem]

theorem combineById_entry_id (sem kw : List (SearchRow M)) :
    ∀ p ∈ (kw.foldl (fun acc r => if dictHasKey acc r.id then acc else acc ++ [(r.id, r)])
      (sem.foldl (fun acc r => dictInsert acc r.id r) [])), p.1 = p.2.id := by
  intro p hp
  rcases (kwFold_inv kw _).2 p hp with h1 | h1
  · rcases (semFold_inv sem []).2.1 p h1 with h2 | h2
    · simp at h2
    · exact h2.2
  · exact h1.2.1

theorem combineById_ids_nodup (sem kw : List (SearchRow M)) :
    ((combineById sem kw).map (fun r => r.id)).Nodup := by
  unfold combineById
  set m2 := kw.foldl (fun acc r => if dictHasKey acc r.id then acc else acc ++ [(r.id, r)])
    (sem.foldl (fun acc r => dictInsert acc r.id r) []) with hm2
  have hids : (m2.map Prod.snd).map (fun r => r.id) = m2.map Prod.fst := by
    rw [List.map_map]
    exact List.map_congr_left (fun p hp => (combineById_entry_id sem kw p hp).symm)
  rw [hids]
  exact (kwFold_inv kw _).1 ((semFold_inv sem []).1 (by simp))

theorem combineById_mem {sem kw : List (SearchRow M)} {r : SearchRow M}
    (h : r ∈ combineById sem kw) :
    r ∈ sem ∨ (r ∈ kw ∧ r.id ∉ sem.map (fun x => x.id)) := by
  unfold combineById at h
  obtain ⟨p, hp, hpr⟩ := List.mem_map.mp h
  rcases (kwFold_inv kw _).2 p hp with h1 | h1
  · rcases (semFold_inv sem []).2.1 p h1 with h2 | h2
    · simp at h2
    · left
      rw [← hpr]
      exact h2.1
  · right
    refine ⟨hpr ▸ h1.1, ?_⟩
    intro hmem
    apply h1.2.2
    obtain ⟨r', hr', hid⟩ := List.mem_map.mp hmem
    have hkey := (semFold_inv sem []).2.2.2 r' hr'
    rw [hid] at hkey
    have hp1 : p.1 = r.id := by rw [h1.2.1, hpr]
    rw [hp1]
    exact hkey

theorem insertDesc_perm (x : RankedRow M) (l : List (RankedRow M)) :
    (insertDesc x l).Perm (x :: l) := by
  induction l with
  | nil => exact List.Perm.refl _
  | cons y ys ih =>
    by_cases h : rrKey y ≤ rrKey x
    · simp [insertDesc, h]
    · simp only [insertDesc, if_neg h]
      exact (List.Perm.cons y ih).trans (List.Perm.swap x y ys)

theorem sortByRerankDesc_perm (l : List (RankedRow M)) :
    (sortByRerankDesc l).Perm l := by
  induction l with
  | nil => exact List.Perm.refl _
  | cons x xs ih =>
    exact (insertDesc_perm x (sortByRerankDesc xs)).trans (List.Perm.cons x ih)

theorem insertDesc_mem {x a : RankedRow M} {l : List (RankedRow M)}
    (h : a ∈ insertDesc x l) : a = x ∨ a ∈ l := by
  have := (insertDesc_perm x l).mem_iff.mp h
  simpa using this

theorem insertDesc_pairwise (x : RankedRow M) {l : List (RankedRow M)}
    (h : l.Pairwise (fun a b => rrKey b ≤ rrKey a)) :
    (insertDesc x l).Pairwise (fun a b => rrKey b ≤ rrKey a) := by
  induction l with
  | nil => simp [insertDesc]
  | cons y ys ih =>
    rcases List.pairwise_cons.mp h with ⟨hy, hys⟩
    by_cases hxy : rrKey y ≤ rrKey x
    · simp only [insertDesc, if_pos hxy]
      refine List.pairwise_cons.mpr ⟨?_, h⟩
      intro z hz
      rcases List.mem_cons.mp hz with h1 | h1
      · exact h1 ▸ hxy
      · exact le_trans (hy z h1) hxy
    · simp only [insertDesc, if_neg hxy]
      refine List.pairwise_cons.mpr ⟨?_, ih hys⟩
      intro z hz
      rcases insertDesc_mem hz with h1 | h1
      · subst h1
        exact le_of_lt (lt_of_not_le hxy)
      · exact hy z h1

theorem sortByRerankDesc_pairwise (l : List (RankedRow M)) :
    (sortByRerankDesc l).Pairwise (fun a b => rrKey b ≤ rrKey a) := by
  induction l with
  | nil => simp [sortByRerankDesc]
  | cons x xs ih => exact insertDesc_pairwise x ih

theorem map_fst_zip_take {α β : Type} : ∀ (l : List α) (s : List β),
    (l.zip s).map Prod.fst = l.take s.length := by
  intro l
  induction l with
  | nil => intro s; simp
  | cons a as ih =>
    intro s
    cases s with
    | nil => simp
    | cons b bs => simp [List.zip_cons_cons, ih]

end HybridSearch

/-- C4: a single `hybrid_search` call never returns two candidates
with the same id, and a candidate whose id was returned by the
semantic (vector) search — in particular an id found by both
sub-searches — appears once, carrying its vector-search row. -/
theorem C4_hybrid_search_dedup (M : Type)
    (reranker : Option (List (String × String) → List Int)) (query_text : String)
    (top_k : Nat) (semantic keyword : List (SearchRow M)) :
    (((hybrid_search reranker query_text top_k semantic keyword).map
        (fun r => r.row.id)).Nodup) ∧
    (∀ r ∈ hybrid_search reranker query_text top_k semantic keyword,
      r.row.id ∈ semantic.map (fun x => x.id) → r.row ∈ semantic) := by
  have hnodup := combineById_ids_nodup semantic keyword
  unfold hybrid_search
  by_cases hempty : (combineById semantic keyword).isEmpty
  · simp [hempty]
  · cases reranker with
    | none =>
      simp only [hempty, Bool.false_eq_true, if_false]
      constructor
      · have heq : (((combineById semantic keyword).map (fun r => RankedRow.mk r none)).take
            top_k).map (fun r => r.row.id) =
            (((combineById semantic keyword).map (fun r => r.id)).take top_k) := by
          rw [← List.map_take, List.map_map, List.map_take]
          rfl
        rw [heq]
        exact hnodup.sublist (List.take_sublist _ _)
      · intro r hr hid
        obtain ⟨row, hrow, hr2⟩ := List.mem_map.mp (List.take_subset _ _ hr)
        subst hr2
        rcases combineById_mem hrow with h1 | h1
        · exact h1
        · exact absurd hid h1.2
    | some predict =>
      simp only [hempty, Bool.false_eq_true, if_false]
      have hscored : ∀ r ∈ ((combineById semantic keyword).zip
          (predict ((combineById semantic keyword).map
            (fun r => (query_text, r.content))))).map
          (fun p => RankedRow.mk p.1 (some p.2)),
          r.row ∈ combineById semantic keyword := by
        intro r hr
        obtain ⟨p, hp, hpr⟩ := List.mem_map.mp hr
        obtain ⟨a, b⟩ := p
        subst hpr
        exact (List.of_mem_zip hp).1
      constructor
      · have hmap : (((combineById semantic keyword).zip
            (predict ((combineById semantic keyword).map
              (fun r => (query_text, r.content))))).map
            (fun p => RankedRow.mk p.1 (some p.2))).map (fun r => r.row.id) =
            (((combineById semantic keyword).take
              (predict ((combineById semantic keyword).map
                (fun r => (query_text, r.content)))).length).map (fun r => r.id)) := by
          rw [List.map_map, ← map_fst_zip_take ((combineById semantic keyword))
            (predict ((combineById semantic keyword).map (fun r => (query_text, r.content)))),
            List.map_map]
          rfl
        have hscored_nodup : ((((combineById semantic keyword).zip
            (predict ((combineById semantic keyword).map
              (fun r => (query_text, r.content))))).map
            (fun p => RankedRow.mk p.1 (some p.2))).map (fun r => r.row.id)).Nodup := by
          rw [hmap, List.map_take]
          exact hnodup.sublist (List.take_sublist _ _)
        have hperm := (sortByRerankDesc_perm (((combineById semantic keyword).zip
            (predict ((combineById semantic keyword).map
              (fun r => (query_text, r.content))))).map
            (fun p => RankedRow.mk p.1 (some p.2)))).map (fun r => r.row.id)
        have hsort_nodup := (hperm.nodup_iff).mpr hscored_nodup
        rw [List.map_take]
        exact hsort_nodup.sublist (List.take_sublist _ _)
      · intro r hr hid
        have hr2 : r ∈ sortByRerankDesc (((combineById semantic keyword).zip
            (predict ((combineById semantic keyword).map
              (fun r => (query_text, r.content))))).map
            (fun p => RankedRow.mk p.1 (some p.2))) := List.take_subset _ _ hr
        have hr3 := (sortByRerankDesc_perm _).mem_iff.mp hr2
        rcases combineById_mem (hscored r hr3) with h1 | h1
        · exact h1
        · exact absurd hid h1.2

/-- Witness for C4 at the specification's end-to-end example: the
chunk found by both sub-searches appears exactly once, carrying its
vector-search row. -/
theorem C4_witness :
    ((hybrid_search (some exPredict) ("what is X") 3 [exRowSem] [exRowKw]).map
      (fun r => r.row.id)).Nodup ∧
    ((RankedRow.mk exRowSem (some 95)) ∈
      hybrid_search (some exPredict) ("what is X") 3 [exRowSem] [exRowKw]) ∧
    ((RankedRow.mk exRowSem (some 95)).row ∈ ([exRowSem] : List (SearchRow Unit))) :=
  ⟨(C4_hybrid_search_dedup Unit (some exPredict) ("what is X") 3 [exRowSem] [exRowKw]).1,
   by decide,
   (C4_hybrid_search_dedup Unit (some exPredict) ("what is X") 3 [exRowSem] [exRowKw]).2
     (RankedRow.mk exRowSem (some 95)) (by decide) (by decide)⟩

/-- C5: with a re-ranker configured, `hybrid_search` returns the first
`top_k` elements of the union re-scored and stably sorted by
non-increasing re-rank score (when the re-ranker scores one-to-one,
that ordering covers the whole fused candidate set and every returned
candidate carries a score); without a re-ranker it returns the union
order (vector-search results first) truncated to `top_k` without
raising; in all cases the result length is at most `top_k`. -/
theorem C5_rerank_order (M : Type) (query_text : String) (top_k : Nat)
    (semantic keyword : List (SearchRow M)) :
    (∀ predict : List (String × String) → List Int,
      (hybrid_search (some predict) query_text top_k semantic keyword).Pairwise
        (fun a b => rrKey b ≤ rrKey a) ∧
      hybrid_search (some predict) query_text top_k semantic keyword =
        (sortByRerankDesc (((combineById semantic keyword).zip
          (predict ((combineById semantic keyword).map
            (fun r => (query_text, r.content))))).map
          (fun p => RankedRow.mk p.1 (some p.2)))).take top_k ∧
      (∀ r ∈ hybrid_search (some predict) query_text top_k semantic keyword,
        r.rerank_score.isSome) ∧
      ((∀ l, (predict l).length = l.length) →
        ((sortByRerankDesc (((combineById semantic keyword).zip
          (predict ((combineById semantic keyword).map
            (fun r => (query_text, r.content))))).map
          (fun p => RankedRow.mk p.1 (some p.2)))).map (fun r => r.row)).Perm
          (combineById semantic keyword))) ∧
    (hybrid_search none query_text top_k semantic keyword =
      ((combineById semantic keyword).map (fun r => RankedRow.mk r none)).take top_k) ∧
    (∀ reranker, (hybrid_search reranker query_text top_k semantic keyword).length ≤ top_k) := by
  refine ⟨?_, ?_, ?_⟩
  · intro predict
    refine ⟨?_, ?_, ?_, ?_⟩
    · unfold hybrid_search
      by_cases hempty : (combineById semantic keyword).isEmpty
      · simp [hempty]
      · simp only [hempty, Bool.false_eq_true, if_false]
        exact (sortByRerankDesc_pairwise _).sublist (List.take_sublist _ _)
    · unfold hybrid_search
      by_cases hempty : (combineById semantic keyword).isEmpty
      · rw [List.isEmpty_iff] at hempty
        simp [hempty, sortByRerankDesc]
      · simp [hempty]
    · intro r hr
      unfold hybrid_search at hr
      by_cases hempty : (combineById semantic keyword).isEmpty
      · simp [hempty] at hr
      · simp only [hempty, Bool.false_eq_true, if_false] at hr
        have hr2 := (sortByRerankDesc_perm _).mem_iff.mp (List.take_subset _ _ hr)
        obtain ⟨p, _, hpr⟩ := List.mem_map.mp hr2
        rw [← hpr]
        rfl
    · intro hpred
      have hlen : (predict ((combineById semantic keyword).map
          (fun r => (query_text, r.content)))).length =
          (combineById semantic keyword).length := by
        rw [hpred]
        simp
      have hfst : ((((combineById semantic keyword).zip
          (predict ((combineById semantic keyword).map
            (fun r => (query_text, r.content))))).map
          (fun p => RankedRow.mk p.1 (some p.2))).map (fun r => r.row)) =
          combineById semantic keyword := by
        rw [List.map_map]
        have := map_fst_zip_take (combineById semantic keyword)
          (predict ((combineById semantic keyword).map (fun r => (query_text, r.content))))
        rw [hlen, List.take_length] at this
        exact this
      have hperm := (sortByRerankDesc_perm (((combineById semantic keyword).zip
          (predict ((combineById semantic keyword).map
            (fun r => (query_text, r.content))))).map
          (fun p => RankedRow.mk p.1 (some p.2)))).map (fun r => r.row)
      rw [hfst] at hperm
      exact hperm
  · unfold hybrid_search
    by_cases hempty : (combineById semantic keyword).isEmpty
    · rw [List.isEmpty_iff] at hempty
      simp [hempty]
    · simp [hempty]
  · intro reranker
    unfold hybrid_search
    by_cases hempty : (combineById semantic keyword).isEmpty
    · simp [hempty]
    · cases reranker with
      | none =>
        simp only [hempty, Bool.false_eq_true, if_false]
        exact List.length_take_le _ _
      | some predict =>
        simp only [hempty, Bool.false_eq_true, if_false]
        exact List.length_take_le _ _

/-- Witness for C5 at the specification's end-to-end example. -/
theorem C5_witness :
    (∀ l, (exPredict l).length = l.length) ∧
    ((sortByRerankDesc ((((combineById [exRowSem] [exRowKw])).zip
      (exPredict ((combineById [exRowSem] [exRowKw]).map
        (fun r => (("what is X" : String), r.content))))).map
      (fun p => RankedRow.mk p.1 (some p.2)))).map (fun r => r.row)).Perm
      (combineById [exRowSem] [exRowKw]) ∧
    hybrid_search none ("what is X") 3 [exRowSem] [exRowKw] =
      ((combineById [exRowSem] [exRowKw]).map (fun r => RankedRow.mk r none)).take 3 :=
  ⟨fun l => by simp [exPredict],
   ((C5_rerank_order Unit ("what is X") 3 [exRowSem] [exRowKw]).1 exPredict).2.2.2
     (fun l => by simp [exPredict]),
   (C5_rerank_order Unit ("what is X") 3 [exRowSem] [exRowKw]).2.1⟩

theorem embedPhase1_spec {V : Type} (getKey : String → String) :
    ∀ (texts : List String) (s : EmbSys V),
    (embedPhase1 getKey s texts).1.length = texts.length ∧
    (embedPhase1 getKey s texts).1.countP (fun o => o.isNone) =
      (embedPhase1 getKey s texts).2.1.length := by
  intro texts
  induction texts with
  | nil => intro s; simp [embedPhase1]
  | cons t ts ih =>
    intro s
    simp only [embedPhase1]
    cases hc : (get_cached_embedding getKey s t).1 with
    | some v =>
      simp only [List.length_cons, List.countP_cons, Option.isNone_some]
      have := ih (get_cached_embedding getKey s t).2
      exact ⟨by rw [this.1], by simpa using this.2⟩
    | none =>
      simp only [List.length_cons, List.countP_cons, Option.isNone_none]
      have := ih (get_cached_embedding getKey s t).2
      exact ⟨by rw [this.1], by simpa using this.2⟩

theorem fillResults_length {V : Type} :
    ∀ (rs : List (Option V)) (vs : List V), (fillResults rs vs).length = rs.length := by
  intro rs
  induction rs with
  | nil => intro vs; rfl
  | cons r rs ih =>
    intro vs
    cases r with
    | some v => simp [fillResults, ih]
    | none =>
      cases vs with
      | nil => simp [fillResults, ih]
      | cons v vs => simp [fillResults, ih]

theorem fillResults_isSome {V : Type} :
    ∀ (rs : List (Option V)) (vs : List V),
    rs.countP (fun o => o.isNone) ≤ vs.length →
    ∀ r ∈ fillResults rs vs, r.isSome := by
  intro rs
  induction rs with
  | nil => intro vs _ r hr; cases hr
  | cons x rs ih =>
    intro vs hle r hr
    cases x with
    | some v =>
      rcases List.mem_cons.mp (by simpa [fillResults] using hr) with h1 | h1
      · simp [h1]
      · exact ih vs (by simpa using hle) r h1
    | none =>
      cases vs with
      | nil =>
        exfalso
        simp [List.countP_cons] at hle
      | cons v vs =>
        rcases List.mem_cons.mp (by simpa [fillResults] using hr) with h1 | h1
        · simp [h1]
        · refine ih vs ?_ r h1
          have hstep : (none :: rs : List (Option V)).countP (fun o => o.isNone) =
              rs.countP (fun o => o.isNone) + 1 := by simp [List.countP_cons]
          rw [hstep, List.length_cons] at hle
          omega

/-- C3: for every input list of texts, `create_embeddings` returns
exactly one result slot per input text in input order, and no slot is
left unfilled (`None`): with the external batch embedding honouring
its one-vector-per-text contract, a call either produces a vector for
every text or raises inside that external call — it never returns a
partial result. -/
theorem C3_create_embeddings_total (V : Type) (getKey : String → String)
    (embedFn : String → V) (s : EmbSys V) (texts : List String) :
    (create_embeddings getKey embedFn s texts).results.length = texts.length ∧
    ∀ r ∈ (create_embeddings getKey embedFn s texts).results, r.isSome := by
  unfold create_embeddings
  by_cases hempty : texts.isEmpty
  · rw [List.isEmpty_iff] at hempty
    subst hempty
    simp
  · simp only [hempty, Bool.false_eq_true, if_false]
    have hspec := embedPhase1_spec getKey texts s
    by_cases hmiss : (embedPhase1 getKey s texts).2.1.isEmpty
    · simp only [hmiss, if_true]
      refine ⟨hspec.1, ?_⟩
      intro r hr
      rw [List.isEmpty_iff] at hmiss
      have hcount : (embedPhase1 getKey s texts).1.countP (fun o => o.isNone) = 0 := by
        rw [hspec.2, hmiss]
        rfl
      have := List.countP_eq_zero.mp hcount r hr
      cases r with
      | some v => rfl
      | none => simp at this
    · simp only [hmiss, Bool.false_eq_true, if_false]
      refine ⟨?_, ?_⟩
      · rw [fillResults_length, hspec.1]
      · apply fillResults_isSome
        rw [hspec.2, List.length_map]

/-- Witness for C3 at a concrete three-text call with a repeated
text. -/
theorem C3_witness :
    (create_embeddings (fun t => t) (fun _ => (0 : Int)) (embInit Int)
      ["alpha", "beta", "alpha"]).results.length = 3 ∧
    ∀ r ∈ (create_embeddings (fun t => t) (fun _ => (0 : Int)) (embInit Int)
      ["alpha", "beta", "alpha"]).results, r.isSome :=
  ⟨(C3_create_embeddings_total Int (fun t => t) (fun _ => (0 : Int)) (embInit Int)
      ["alpha", "beta", "alpha"]).1,
   (C3_create_embeddings_total Int (fun t => t) (fun _ => (0 : Int)) (embInit Int)
      ["alpha", "beta", "alpha"]).2⟩

/-- C10: `ProviderFactory.get_provider` is total on provider-id
strings and never raises; an id whose case-folded form is registered
returns that provider, and any id not in the registry after
case-folding silently yields the Gemini provider as the default. -/
theorem C10_get_provider_default (s : String) :
    (∀ p, lookupReg (pyLower s) providerRegistry = some p → get_provider s = p) ∧
    (lookupReg (pyLower s) providerRegistry = none → get_provider s = ProviderId.gemini) := by
  constructor
  · intro p h
    simp [get_provider, h]
  · intro h
    simp [get_provider, h]

/-- Witness for C10 at the concrete unknown id `"FooBar"` and the
registered id `"GEMINI"`. -/
theorem C10_witness :
    (lookupReg (pyLower ("FooBar")) providerRegistry = none ∧
      get_provider ("FooBar") = ProviderId.gemini) ∧
    (lookupReg (pyLower ("GEMINI")) providerRegistry = some ProviderId.gemini ∧
      get_provider ("GEMINI") = ProviderId.gemini) :=
  ⟨⟨by decide, (C10_get_provider_default ("FooBar")).2 (by decide)⟩,
   ⟨by decide, (C10_get_provider_default ("GEMINI")).1 ProviderId.gemini (by decide)⟩⟩

/-- C2: when hybrid search returns an empty candidate list, the search
endpoint performs zero calls into any provider stream client and its
stream is exactly the not-found stream: one text fragment (the fixed
message, phrased by `notFoundMessage` for the singular / plural /
absent source-file restriction), the JSON separator, and a terminal
metadata record whose highlighted context is null. -/
theorem C2_empty_results_terminal (M : Type) (request_source_files : Option (List String))
    (query : String) (providerStream : List String) (highlight : String → String → String) :
    (search_endpoint (M := M) [] request_source_files query providerStream highlight).providerCalls
        = 0 ∧
    (search_endpoint (M := M) [] request_source_files query providerStream highlight).stream =
      [ChatItem.text (notFoundMessage (cleanSourceFiles request_source_files)),
       ChatItem.jsonSep, ChatItem.metadata none none] ∧
    ((search_endpoint (M := M) [] request_source_files query providerStream
        highlight).stream.filter ChatItem.isText).length = 1 := by
  refine ⟨rfl, rfl, ?_⟩
  simp [search_endpoint, create_not_found_stream, ChatItem.isText]

theorem seqAt_append (n s : List Char) : seqAt n (n ++ s) = true := by
  induction n with
  | nil => rfl
  | cons a as ih => simp [seqAt, ih]

theorem containsSeq_nil_needle (hay : List Char) : containsSeq [] hay = true := by
  cases hay <;> simp [containsSeq, seqAt, List.isEmpty]

theorem seqAt_extend (n : List Char) : ∀ p s, seqAt n p = true → seqAt n (p ++ s) = true := by
  induction n with
  | nil => intro p s _; rfl
  | cons a as ih =>
    intro p s h
    cases p with
    | nil => simp [seqAt] at h
    | cons b bs =>
      simp only [seqAt, Bool.and_eq_true, List.cons_append] at h ⊢
      exact ⟨h.1, ih bs s h.2⟩

theorem containsSeq_self_append (n s : List Char) : containsSeq n (n ++ s) = true := by
  cases n with
  | nil => exact containsSeq_nil_needle s
  | cons a as =>
    rw [List.cons_append]
    simp only [containsSeq, Bool.or_eq_true]
    left
    have := seqAt_append (a :: as) s
    rwa [List.cons_append] at this

theorem containsSeq_mid (p n s : List Char) : containsSeq n (p ++ n ++ s) = true := by
  induction p with
  | nil => simpa using containsSeq_self_append n s
  | cons c cs ih =>
    simp only [List.cons_append, containsSeq, Bool.or_eq_true]
    right
    simpa using ih

theorem carriesStatus_cat_end (pre : String) (status : Nat) :
    carriesStatus (pre ++ Nat.repr status) status = true := by
  unfold carriesStatus
  rw [String.data_append]
  have := containsSeq_mid pre.data (Nat.repr status).data []
  simpa using this

theorem carriesStatus_cat_mid (pre suf : String) (status : Nat) :
    carriesStatus (pre ++ Nat.repr status ++ suf) status = true := by
  unfold carriesStatus
  rw [String.data_append, String.data_append]
  exact containsSeq_mid pre.data (Nat.repr status).data suf.data

/-- C6 fails as stated: `SearchEngine._generate_with_custom_key` — one
of the cited provider stream implementations — reacts to an upstream
HTTP 500 with a single terminal message that does not carry the
status code. -/
theorem C6_counterexample :
    customKeyGenerateStream extractGemini 500 [] = [customKeyErrMsg] ∧
    carriesStatus customKeyErrMsg 500 = false := by
  constructor
  · rfl
  · decide

/-- C6 (amended): every provider stream implementation reacts to a
non-200 upstream status by yielding exactly one terminal message,
after which the stream ends; the Gemini, OpenAI, Anthropic and
Cerebras providers' messages carry the status code, as does Ollama's
for any status other than 404, while Ollama's 404 message names the
missing model without the code and the custom-key Gemini path's fixed
message never carries it. -/
theorem C6_error_status_terminal (status : Nat) (h : status ≠ 200)
    (extract : List Char → Option (List String)) (extractLine : String → List String)
    (bodyB : List (List Nat)) (bodyL : List String) (model : String) :
    (geminiGenerateStream extract status bodyB = [geminiErrMsg status] ∧
      carriesStatus (geminiErrMsg status) status = true) ∧
    (openAIGenerateStream extractLine status bodyL = [openAIErrMsg status] ∧
      carriesStatus (openAIErrMsg status) status = true) ∧
    (anthropicGenerateStream extractLine status bodyL = [anthropicErrMsg status] ∧
      carriesStatus (anthropicErrMsg status) status = true) ∧
    (cerebrasGenerateStream extractLine status bodyL = [cerebrasErrMsg status] ∧
      carriesStatus (cerebrasErrMsg status) status = true) ∧
    (status ≠ 404 →
      ollamaGenerateStream extractLine model status bodyL = [ollamaErrMsg status] ∧
      carriesStatus (ollamaErrMsg status) status = true) ∧
    ollamaGenerateStream extractLine model 404 bodyL = [ollamaNotFoundMsg model] ∧
    customKeyGenerateStream extract status bodyB = [customKeyErrMsg] := by
  refine ⟨⟨?_, ?_⟩, ⟨?_, ?_⟩, ⟨?_, ?_⟩, ⟨?_, ?_⟩, ?_, ?_, ?_⟩
  · simp [geminiGenerateStream, h]
  · exact carriesStatus_cat_end _ status
  · simp [openAIGenerateStream, h]
  · exact carriesStatus_cat_end _ status
  · simp [anthropicGenerateStream, h]
  · exact carriesStatus_cat_end _ status
  · simp [cerebrasGenerateStream, h]
  · exact carriesStatus_cat_end _ status
  · intro h404
    exact ⟨by simp [ollamaGenerateStream, h, h404], carriesStatus_cat_mid _ _ status⟩
  · simp [ollamaGenerateStream]
  · simp [customKeyGenerateStream, h]

/-- Witness for C6 at the concrete status 503. -/
theorem C6_witness :
    (503 : Nat) ≠ 200 ∧ (503 : Nat) ≠ 404 ∧
    geminiGenerateStream extractGemini 503 [] = [geminiErrMsg 503] ∧
    carriesStatus (geminiErrMsg 503) 503 = true ∧
    ollamaGenerateStream (fun _ => []) ("qwen2.5:3b") 503 [] = [ollamaErrMsg 503] ∧
    carriesStatus (ollamaErrMsg 503) 503 = true :=
  have h := C6_error_status_terminal 503 (by decide) extractGemini (fun _ => []) [] []
    ("qwen2.5:3b")
  ⟨by decide, by decide, h.1.1, h.1.2, (h.2.2.2.2.1 (by decide)).1, (h.2.2.2.2.1 (by decide)).2⟩

/-- C9 fails as stated: with an empty answer the highlighter does not
return the context unmodified — sentence splitting and re-joining
collapse the double space of this context. -/
theorem C9_counterexample :
    highlight_relevant_sentences ("") ("Hola.  Mundo.") ≠ "Hola.  Mundo." := by
  decide

/-- C9 (amended): with an empty answer string the highlighter marks no
sentences and evaluates no overlap ratio (the `answer_words and ...`
guard short-circuits on the empty word set), and it returns the
context's sentences stripped and re-joined with single spaces — in
particular the context itself whenever the context is already in that
normal form. -/
theorem C9_empty_answer (context : String) :
    highlight_relevant_sentences ("") context =
      String.intercalate " " ((splitSentences context.data).map (fun s => String.mk (stripWs s))) ∧
    (String.intercalate " "
        ((splitSentences context.data).map (fun s => String.mk (stripWs s))) = context →
      highlight_relevant_sentences ("") context = context) := by
  have hw : wordSet (("" : String).data) = [] := rfl
  constructor
  · simp [highlight_relevant_sentences, hw]
  · intro heq
    simp [highlight_relevant_sentences, hw, heq]

/-- Witness for C9 at a context already in single-space normal form:
the highlighter returns it unchanged. -/
theorem C9_witness :
    highlight_relevant_sentences ("") ("Hola. Mundo.") = "Hola. Mundo." :=
  (C9_empty_answer ("Hola. Mundo.")).2 (by decide)

section LruLemmas

variable {V : Type}

theorem lookupA_isSome_iff {m : List (String × V)} {k : String} :
    (lookupA k m).isSome ↔ k ∈ m.map Prod.fst := by
  induction m with
  | nil => simp [lookupA]
  | cons p rest ih =>
    obtain ⟨k', v'⟩ := p
    by_cases hk : k' = k
    · subst hk
      simp [lookupA]
    · simp [lookupA, hk, ih, Ne.symm hk]

theorem lookupA_eq_none_iff {m : List (String × V)} {k : String} :
    lookupA k m = none ↔ k ∉ m.map Prod.fst := by
  rw [← lookupA_isSome_iff]
  cases lookupA k m <;> simp

theorem lookupA_setA_self (m : List (String × V)) (k : String) (v : V) :
    lookupA k (setA k v m) = some v := by
  induction m with
  | nil => simp [setA, lookupA]
  | cons p rest ih =>
    obtain ⟨k', v'⟩ := p
    by_cases hk : k' = k
    · subst hk
      simp [setA, lookupA]
    · simp [setA, hk, lookupA, ih]

theorem lookupA_setA_other {k k' : String} (hne : k' ≠ k) (m : List (String × V)) (v : V) :
    lookupA k' (setA k v m) = lookupA k' m := by
  induction m with
  | nil => simp [setA, lookupA, Ne.symm hne]
  | cons p rest ih =>
    obtain ⟨k'', v''⟩ := p
    by_cases hk : k'' = k
    · subst hk
      simp [setA, lookupA, Ne.symm hne]
    · simp [setA, hk, lookupA, ih]

theorem lookupA_removeA_other {k k' : String} (hne : k' ≠ k) (m : List (String × V)) :
    lookupA k' (removeA k m) = lookupA k' m := by
  induction m with
  | nil => simp [removeA]
  | cons p rest ih =>
    obtain ⟨k'', v''⟩ := p
    by_cases hk : k'' = k
    · subst hk
      simp [removeA, lookupA, Ne.symm hne]
    · simp [removeA, hk, lookupA, ih]

theorem removeA_map_fst_subset {m : List (String × V)} {k k' : String}
    (h : k' ∈ (removeA k m).map Prod.fst) : k' ∈ m.map Prod.fst := by
  induction m with
  | nil => simp [removeA] at h
  | cons p rest ih =>
    obtain ⟨k'', v''⟩ := p
    by_cases hk : k'' = k
    · subst hk
      have hr : removeA k'' ((k'', v'') :: rest) = rest := by simp [removeA]
      rw [hr] at h
      simp [h]
    · simp only [removeA, if_neg hk, List.map_cons, List.mem_cons] at h
      rcases h with h | h
      · simp [h]
      · simp [ih h]

theorem lookupA_removeA_self {m : List (String × V)} (hnd : (m.map Prod.fst).Nodup)
    (k : String) : lookupA k (removeA k m) = none := by
  induction m with
  | nil => simp [removeA, lookupA]
  | cons p rest ih =>
    obtain ⟨k', v'⟩ := p
    by_cases hk : k' = k
    · subst hk
      simp only [removeA, if_pos rfl]
      rw [lookupA_eq_none_iff]
      exact (List.nodup_cons.mp (by simpa using hnd)).1
    · simp only [removeA, if_neg hk, lookupA, if_neg hk]
      exact ih (List.nodup_cons.mp (by simpa using hnd)).2

theorem setA_map_fst (m : List (String × V)) (k : String) (v : V) :
    (setA k v m).map Prod.fst =
      if k ∈ m.map Prod.fst then m.map Prod.fst else m.map Prod.fst ++ [k] := by
  induction m with
  | nil => simp [setA]
  | cons p rest ih =>
    obtain ⟨k', v'⟩ := p
    by_cases hk : k' = k
    · subst hk
      simp [setA]
    · simp only [setA, if_neg hk, List.map_cons, List.mem_cons, ih]
      by_cases hmem : k ∈ rest.map Prod.fst
      · simp [hmem, Ne.symm hk]
      · simp [hmem, Ne.symm hk]

theorem removeA_map_fst {m : List (String × V)} (hnd : (m.map Prod.fst).Nodup) (k : String) :
    (removeA k m).map Prod.fst = (m.map Prod.fst).erase k := by
  induction m with
  | nil => simp [removeA]
  | cons p rest ih =>
    obtain ⟨k', v'⟩ := p
    by_cases hk : k' = k
    · subst hk
      simp [removeA, List.erase_cons_head]
    · simp only [removeA, if_neg hk, List.map_cons]
      rw [List.erase_cons_tail (by simpa using hk)]
      rw [ih (List.nodup_cons.mp (by simpa using hnd)).2]

theorem lru_get_hit {s : EmbSys V} {key : String} {v : V}
    (h : lookupA key s.lruCache = some v) :
    lru_get s key = (some v, { s with lruKeys := s.lruKeys.erase key ++ [key] }) := by
  simp [lru_get, h]

theorem lru_get_miss {s : EmbSys V} {key : String}
    (h : lookupA key s.lruCache = none) : lru_get s key = (none, s) := by
  simp [lru_get, h]

theorem lru_set_overwrite {s : EmbSys V} {key : String} (v : V)
    (h : (lookupA key s.lruCache).isSome) :
    lru_set s key v = { s with lruCache := setA key v s.lruCache } := by
  simp [lru_set, h]

theorem lru_set_insert_below {s : EmbSys V} {key : String} (v : V)
    (hmiss : lookupA key s.lruCache = none) (hlen : s.lruKeys.length < LRU_CACHE_SIZE) :
    lru_set s key v =
      { s with lruKeys := s.lruKeys ++ [key], lruCache := setA key v s.lruCache } := by
  rw [lru_set]
  rw [hmiss]
  simp only [Option.isSome_none, Bool.false_eq_true, if_false]
  rw [if_neg (Nat.not_le.mpr hlen)]

theorem lru_set_insert_full {s : EmbSys V} {key oldest : String} {restKeys : List String}
    (v : V) (hmiss : lookupA key s.lruCache = none)
    (hkeys : s.lruKeys = oldest :: restKeys) (hlen : LRU_CACHE_SIZE ≤ s.lruKeys.length) :
    lru_set s key v =
      { s with lruKeys := restKeys ++ [key],
               lruCache := setA key v (removeA oldest s.lruCache) } := by
  rw [lru_set]
  rw [hmiss]
  simp only [Option.isSome_none, Bool.false_eq_true, if_false]
  rw [if_pos hlen]
  rw [hkeys]

theorem WF_lru_get {s : EmbSys V} (hwf : WF s) (key : String) :
    WF (lru_get s key).2 ∧ (lru_get s key).2.lruCache = s.lruCache ∧
    (lru_get s key).2.redis = s.redis ∧
    (lru_get s key).2.redisEnabled = s.redisEnabled ∧
    (lru_get s key).2.lruKeys.length = s.lruKeys.length ∧
    (∀ k, k ∈ (lru_get s key).2.lruKeys ↔ k ∈ s.lruKeys) := by
  obtain ⟨hk, hc, hiff, hlen⟩ := hwf
  cases hhit : lookupA key s.lruCache with
  | none =>
    rw [lru_get_miss hhit]
    exact ⟨⟨hk, hc, hiff, hlen⟩, rfl, rfl, rfl, rfl, fun k => Iff.rfl⟩
  | some v =>
    rw [lru_get_hit hhit]
    have hmem : key ∈ s.lruKeys :=
      (hiff key).mp (lookupA_isSome_iff.mp (by simp [hhit]))
    have herasemem : ∀ k, k ∈ s.lruKeys.erase key ↔ k ≠ key ∧ k ∈ s.lruKeys :=
      fun k => hk.mem_erase_iff
    have hmem' : ∀ k, k ∈ s.lruKeys.erase key ++ [key] ↔ k ∈ s.lruKeys := by
      intro k
      simp only [List.mem_append, List.mem_singleton, herasemem]
      constructor
      · rintro (⟨_, h2⟩ | h1)
        · exact h2
        · exact h1 ▸ hmem
      · intro h1
        by_cases hkk : k = key
        · exact Or.inr hkk
        · exact Or.inl ⟨hkk, h1⟩
    have hpos : 0 < s.lruKeys.length := List.length_pos_of_mem hmem
    refine ⟨⟨?_, hc, ?_, ?_⟩, rfl, rfl, rfl, ?_, hmem'⟩
    · simp only [List.nodup_append, List.nodup_singleton]
      refine ⟨hk.erase key, by trivial, ?_⟩
      intro a ha
      rw [herasemem] at ha
      simp only [List.mem_singleton]
      exact fun hcontra => ha.1 hcontra
    · intro k
      rw [hiff k, hmem' k]
    · simp only [List.length_append, List.length_singleton,
        List.length_erase_of_mem hmem]
      omega
    · simp only [List.length_append, List.length_singleton,
        List.length_erase_of_mem hmem]
      omega

theorem WF_lru_set {s : EmbSys V} (hwf : WF s) (key : String) (v : V) :
    WF (lru_set s key v) := by
  obtain ⟨hk, hc, hiff, hlen⟩ := hwf
  cases hhit : lookupA key s.lruCache with
  | some w =>
    rw [lru_set_overwrite v (by simp [hhit])]
    have hmemfst : key ∈ s.lruCache.map Prod.fst := lookupA_isSome_iff.mp (by simp [hhit])
    refine ⟨hk, ?_, ?_, hlen⟩
    · rw [setA_map_fst, if_pos hmemfst]
      exact hc
    · intro k
      rw [setA_map_fst, if_pos hmemfst]
      exact hiff k
  | none =>
    have hnotfst : key ∉ s.lruCache.map Prod.fst := lookupA_eq_none_iff.mp hhit
    have hnotkeys : key ∉ s.lruKeys := fun hmem => hnotfst ((hiff key).mpr hmem)
    by_cases hfull : LRU_CACHE_SIZE ≤ s.lruKeys.length
    · have hlen500 : s.lruKeys.length = LRU_CACHE_SIZE := le_antisymm hlen hfull
      cases hkeys : s.lruKeys with
      | nil => rw [hkeys] at hlen500; simp [LRU_CACHE_SIZE] at hlen500
      | cons oldest restKeys =>
        rw [lru_set_insert_full v hhit hkeys hfull]
        rw [hkeys] at hk hlen500
        obtain ⟨holdnotmem, hkrest⟩ := List.nodup_cons.mp hk
        have hkeynotrest : key ∉ restKeys := fun hmem => hnotkeys (hkeys ▸ List.mem_cons_of_mem _ hmem)
        have hfst : (removeA oldest s.lruCache).map Prod.fst =
            (s.lruCache.map Prod.fst).erase oldest := removeA_map_fst hc oldest
        have hkeynotrm : key ∉ (removeA oldest s.lruCache).map Prod.fst :=
          fun hmem => hnotfst (removeA_map_fst_subset hmem)
        have hfst2 : (setA key v (removeA oldest s.lruCache)).map Prod.fst =
            (s.lruCache.map Prod.fst).erase oldest ++ [key] := by
          rw [setA_map_fst, if_neg hkeynotrm, hfst]
        refine ⟨?_, ?_, ?_, ?_⟩
        · simp only [List.nodup_append, List.nodup_singleton]
          exact ⟨hkrest, by trivial, fun a ha => by
            simp only [List.mem_singleton]
            exact fun hcontra => hkeynotrest (hcontra ▸ ha)⟩
        · rw [hfst2]
          simp only [List.nodup_append, List.nodup_singleton]
          exact ⟨hc.erase oldest, by trivial, fun a ha => by
            simp only [List.mem_singleton]
            exact fun hcontra => hkeynotrm (by rw [hfst]; exact hcontra ▸ ha)⟩
        · intro k
          rw [hfst2]
          simp only [List.mem_append, List.mem_singleton, hc.mem_erase_iff]
          constructor
          · rintro (⟨hne, hmem⟩ | hkk)
            · have := (hiff k).mp hmem
              rw [hkeys] at this
              rcases List.mem_cons.mp this with h1 | h1
              · exact absurd h1 hne
              · exact Or.inl h1
            · exact Or.inr hkk
          · rintro (hmem | hkk)
            · left
              have hkine : k ∈ s.lruKeys := hkeys ▸ List.mem_cons_of_mem _ hmem
              refine ⟨?_, (hiff k).mpr hkine⟩
              intro hcontra
              exact holdnotmem (hcontra ▸ hmem)
            · exact Or.inr hkk
        · simp only [List.length_append, List.length_singleton]
          have : restKeys.length + 1 = LRU_CACHE_SIZE := by simpa using hlen500
          omega
    · rw [lru_set_insert_below v hhit (Nat.not_le.mp hfull)]
      have hfst2 : (setA key v s.lruCache).map Prod.fst =
          s.lruCache.map Prod.fst ++ [key] := by
        rw [setA_map_fst, if_neg hnotfst]
      refine ⟨?_, ?_, ?_, ?_⟩
      · simp only [List.nodup_append, List.nodup_singleton]
        exact ⟨hk, by trivial, fun a ha => by
          simp only [List.mem_singleton]
          exact fun hcontra => hnotkeys (hcontra ▸ ha)⟩
      · rw [hfst2]
        simp only [List.nodup_append, List.nodup_singleton]
        exact ⟨hc, by trivial, fun a ha => by
          simp only [List.mem_singleton]
          exact fun hcontra => hnotfst (hcontra ▸ ha)⟩
      · intro k
        rw [hfst2]
        simp only [List.mem_append, List.mem_singleton]
        exact or_congr (hiff k) Iff.rfl
      · simp only [List.length_append, List.length_singleton]
        omega

theorem WF_embInit : WF (embInit V) := by
  refine ⟨List.nodup_nil, List.nodup_nil, fun k => Iff.rfl, by simp [embInit, LRU_CACHE_SIZE]⟩

theorem WF_applyLruOps : ∀ (ops : List (LruOp V)) (s : EmbSys V), WF s →
    WF (applyLruOps s ops) := by
  intro ops
  induction ops with
  | nil => intro s h; exact h
  | cons op rest ih =>
    intro s h
    cases op with
    | get k => exact ih _ (WF_lru_get h k).1
    | set k v => exact ih _ (WF_lru_set h k v)

theorem WF_cache_length {s : EmbSys V} (hwf : WF s) :
    s.lruCache.length = s.lruKeys.length := by
  obtain ⟨hk, hc, hiff, _⟩ := hwf
  have hperm : (s.lruCache.map Prod.fst).Perm s.lruKeys :=
    (List.perm_ext_iff_of_nodup hc hk).mpr hiff
  have := hperm.length_eq
  simpa using this

/-- Inserting a duplicate-free list of fresh keys that fits within the
remaining capacity appends them to the recency list in order and
stores their values, leaving other cache entries unchanged. -/
theorem lruSet_fresh_all (v : V) : ∀ (ks : List String) (s : EmbSys V), WF s → ks.Nodup →
    (∀ k ∈ ks, k ∉ s.lruKeys) → s.lruKeys.length + ks.length ≤ LRU_CACHE_SIZE →
    WF (applyLruOps s (ks.map (fun k => LruOp.set k v))) ∧
    (applyLruOps s (ks.map (fun k => LruOp.set k v))).lruKeys = s.lruKeys ++ ks ∧
    (∀ k ∈ ks, lookupA k (applyLruOps s (ks.map (fun k => LruOp.set k v))).lruCache = some v) ∧
    (∀ k, k ∉ ks →
      lookupA k (applyLruOps s (ks.map (fun k => LruOp.set k v))).lruCache =
        lookupA k s.lruCache) := by
  intro ks
  induction ks with
  | nil =>
    intro s hwf _ _ _
    exact ⟨hwf, by simp [applyLruOps], by simp, fun k _ => rfl⟩
  | cons k0 ks ih =>
    intro s hwf hnd hfresh hcap
    have hk0notkeys : k0 ∉ s.lruKeys := hfresh k0 (by simp)
    have hk0miss : lookupA k0 s.lruCache = none :=
      lookupA_eq_none_iff.mpr (fun hmem => hk0notkeys ((hwf.2.2.1 k0).mp hmem))
    have hlt : s.lruKeys.length < LRU_CACHE_SIZE := by
      simp only [List.length_cons] at hcap
      omega
    have hstep := lru_set_insert_below v hk0miss hlt
    have hs1 : applyLruOps s ((k0 :: ks).map (fun k => LruOp.set k v)) =
        applyLruOps
          { s with lruKeys := s.lruKeys ++ [k0], lruCache := setA k0 v s.lruCache }
          (ks.map (fun k => LruOp.set k v)) := by
      simp only [List.map_cons, applyLruOps, applyLruOp]
      rw [hstep]
    obtain ⟨hnd0, hndks⟩ := List.nodup_cons.mp hnd
    have hwf1 :
        WF { s with lruKeys := s.lruKeys ++ [k0], lruCache := setA k0 v s.lruCache } := by
      have := WF_lru_set hwf k0 v
      rwa [hstep] at this
    have hfresh1 : ∀ k ∈ ks, k ∉ s.lruKeys ++ [k0] := by
      intro k hk hmem
      rcases List.mem_append.mp hmem with h1 | h1
      · exact hfresh k (List.mem_cons_of_mem _ hk) h1
      · exact hnd0 ((List.mem_singleton.mp h1) ▸ hk)
    have hcap1 : (s.lruKeys ++ [k0]).length + ks.length ≤ LRU_CACHE_SIZE := by
      simp only [List.length_append, List.length_singleton]
      simp only [List.length_cons] at hcap
      omega
    obtain ⟨hwf2, hkeys2, hlook2, hother2⟩ := ih _ hwf1 hndks hfresh1 hcap1
    rw [hs1]
    refine ⟨hwf2, ?_, ?_, ?_⟩
    · rw [hkeys2]
      simp
    · intro k hk
      rcases List.mem_cons.mp hk with h1 | h1
      · subst h1
        rw [hother2 k hnd0]
        exact lookupA_setA_self s.lruCache k v
      · exact hlook2 k h1
    · intro k hk
      have hk1 : k ∉ ks := fun h => hk (List.mem_cons_of_mem _ h)
      have hk0ne : k ≠ k0 := fun h => hk (h ▸ List.mem_cons_self k0 ks)
      rw [hother2 k hk1]
      exact lookupA_setA_other hk0ne s.lruCache v

/-- C8: after any sequence of LRU get/set operations from the initial
empty state both tiers of the in-process cache hold at most the
configured capacity of 500 entries; and an insert performed at
capacity evicts the least-recently-accessed key — a read refreshes
recency, so after filling the cache with 500 distinct keys and then
reading the oldest-inserted key `k0`, inserting a fresh key evicts
`k1` (the least recently accessed) while `k0` survives. -/
theorem C8_lru_capacity_eviction (V : Type) (v w : V) :
    (∀ ops : List (LruOp V),
      (applyLruOps (embInit V) ops).lruKeys.length ≤ LRU_CACHE_SIZE ∧
      (applyLruOps (embInit V) ops).lruCache.length ≤ LRU_CACHE_SIZE) ∧
    (∀ (k0 k1 k' : String) (rest : List String),
      (k0 :: k1 :: rest).Nodup → (k0 :: k1 :: rest).length = LRU_CACHE_SIZE →
      k' ∉ (k0 :: k1 :: rest) →
      lookupA k0 (lru_set ((lru_get (applyLruOps (embInit V)
          ((k0 :: k1 :: rest).map (fun k => LruOp.set k v))) k0).2) k' w).lruCache = some v ∧
      lookupA k1 (lru_set ((lru_get (applyLruOps (embInit V)
          ((k0 :: k1 :: rest).map (fun k => LruOp.set k v))) k0).2) k' w).lruCache = none ∧
      lookupA k' (lru_set ((lru_get (applyLruOps (embInit V)
          ((k0 :: k1 :: rest).map (fun k => LruOp.set k v))) k0).2) k' w).lruCache = some w ∧
      (lru_set ((lru_get (applyLruOps (embInit V)
          ((k0 :: k1 :: rest).map (fun k => LruOp.set k v))) k0).2) k' w).lruKeys.length =
        LRU_CACHE_SIZE) := by
  constructor
  · intro ops
    have hwf := WF_applyLruOps ops (embInit V) WF_embInit
    exact ⟨hwf.2.2.2, by rw [WF_cache_length hwf]; exact hwf.2.2.2⟩
  · intro k0 k1 k' rest hnd hlen hk'
    obtain ⟨hwf1, hkeys1, hlook1, hother1⟩ := lruSet_fresh_all v (k0 :: k1 :: rest)
      (embInit V) WF_embInit hnd (by simp [embInit]) (by simp [embInit, hlen])
    set s1 := applyLruOps (embInit V) ((k0 :: k1 :: rest).map (fun k => LruOp.set k v))
      with hs1def
    simp only [embInit, List.nil_append] at hkeys1
    have hget := lru_get_hit (s := s1) (hlook1 k0 (by simp))
    have hkeys2 : (lru_get s1 k0).2.lruKeys = k1 :: (rest ++ [k0]) := by
      rw [hget]
      simp only [hkeys1, List.erase_cons_head, List.cons_append]
    have hcache2 : (lru_get s1 k0).2.lruCache = s1.lruCache := by rw [hget]
    have hwf2 := (WF_lru_get hwf1 k0).1
    have hk'ne0 : k' ≠ k0 := fun h => hk' (h ▸ List.mem_cons_self _ _)
    have hk'ne1 : k' ≠ k1 := fun h => hk' (h ▸ List.mem_cons_of_mem _ (List.mem_cons_self _ _))
    have hk'miss : lookupA k' (lru_get s1 k0).2.lruCache = none := by
      rw [hcache2, hother1 k' hk']
      rfl
    have hlen2 : LRU_CACHE_SIZE ≤ (lru_get s1 k0).2.lruKeys.length := by
      rw [hkeys2]
      simp only [List.length_cons, List.length_append, List.length_singleton]
      simp only [List.length_cons] at hlen
      omega
    have hset := lru_set_insert_full w hk'miss hkeys2 hlen2
    rw [hset]
    have hndcons := List.nodup_cons.mp hnd
    have hk0ne1 : k0 ≠ k1 := fun h => hndcons.1 (h ▸ List.mem_cons_self _ _)
    refine ⟨?_, ?_, ?_, ?_⟩
    · rw [lookupA_setA_other (Ne.symm hk'ne0) _ w]
      rw [lookupA_removeA_other hk0ne1]
      rw [hcache2]
      exact hlook1 k0 (by simp)
    · rw [lookupA_setA_other (Ne.symm hk'ne1) _ w]
      rw [hcache2]
      exact lookupA_removeA_self hwf1.2.1 k1
    · exact lookupA_setA_self _ k' w
    · simp only [List.length_append, List.length_singleton]
      rw [hkeys2] at hlen2
      simp only [List.length_cons, List.length_append, List.length_singleton] at hlen2 ⊢
      simp only [List.length_cons] at hlen
      omega

theorem repKey_inj {i j : Nat} (h : repKey i = repKey j) : i = j := by
  have hd : List.replicate i 'a' = List.replicate j 'a' := congrArg String.data h
  have hl := congrArg List.length hd
  simpa using hl

theorem c8wit_nodup : (repKey 0 :: repKey 1 :: lruRest498).Nodup := by
  refine List.nodup_cons.mpr ⟨?_, List.nodup_cons.mpr ⟨?_, ?_⟩⟩
  · intro h
    rcases List.mem_cons.mp h with h1 | h1
    · exact absurd (repKey_inj h1) (by omega)
    · rw [lruRest498] at h1
      obtain ⟨i, hi, he⟩ := List.mem_map.mp h1
      exact absurd (repKey_inj he.symm) (by omega)
  · intro h1
    rw [lruRest498] at h1
    obtain ⟨i, hi, he⟩ := List.mem_map.mp h1
    exact absurd (repKey_inj he.symm) (by omega)
  · refine List.Nodup.map ?_ (List.nodup_range 498)
    intro a b h
    have := repKey_inj h
    omega

theorem c8wit_len : (repKey 0 :: repKey 1 :: lruRest498).length = LRU_CACHE_SIZE := by
  simp [lruRest498, LRU_CACHE_SIZE]

theorem c8wit_notmem : repKey 500 ∉ (repKey 0 :: repKey 1 :: lruRest498) := by
  intro h
  rcases List.mem_cons.mp h with h1 | h1
  · exact absurd (repKey_inj h1) (by omega)
  · rcases List.mem_cons.mp h1 with h2 | h2
    · exact absurd (repKey_inj h2) (by omega)
    · rw [lruRest498] at h2
      obtain ⟨i, hi, he⟩ := List.mem_map.mp h2
      have := repKey_inj he.symm
      have hlt := List.mem_range.mp hi
      omega

/-- Witness for C8 at 500 concrete distinct keys: reading the
oldest-inserted key saves it from the next eviction, which falls on
the least-recently-accessed key instead. -/
theorem C8_witness :
    ((repKey 0 :: repKey 1 :: lruRest498).Nodup ∧
      (repKey 0 :: repKey 1 :: lruRest498).length = LRU_CACHE_SIZE ∧
      repKey 500 ∉ (repKey 0 :: repKey 1 :: lruRest498)) ∧
    (lookupA (repKey 0) (lru_set ((lru_get (applyLruOps (embInit Int)
        ((repKey 0 :: repKey 1 :: lruRest498).map (fun k => LruOp.set k (1 : Int))))
        (repKey 0)).2) (repKey 500) (2 : Int)).lruCache = some 1 ∧
      lookupA (repKey 1) (lru_set ((lru_get (applyLruOps (embInit Int)
        ((repKey 0 :: repKey 1 :: lruRest498).map (fun k => LruOp.set k (1 : Int))))
        (repKey 0)).2) (repKey 500) (2 : Int)).lruCache = none ∧
      lookupA (repKey 500) (lru_set ((lru_get (applyLruOps (embInit Int)
        ((repKey 0 :: repKey 1 :: lruRest498).map (fun k => LruOp.set k (1 : Int))))
        (repKey 0)).2) (repKey 500) (2 : Int)).lruCache = some 2 ∧
      (lru_set ((lru_get (applyLruOps (embInit Int)
        ((repKey 0 :: repKey 1 :: lruRest498).map (fun k => LruOp.set k (1 : Int))))
        (repKey 0)).2) (repKey 500) (2 : Int)).lruKeys.length = LRU_CACHE_SIZE) :=
  ⟨⟨c8wit_nodup, c8wit_len, c8wit_notmem⟩,
   (C8_lru_capacity_eviction Int 1 2).2 (repKey 0) (repKey 1) (repKey 500) lruRest498
     c8wit_nodup c8wit_len c8wit_notmem⟩

theorem lru_get_fields (s : EmbSys V) (key : String) :
    (lru_get s key).2.lruCache = s.lruCache ∧ (lru_get s key).2.redis = s.redis ∧
    (lru_get s key).2.redisEnabled = s.redisEnabled := by
  cases h : lookupA key s.lruCache with
  | some v => rw [lru_get_hit h]; exact ⟨rfl, rfl, rfl⟩
  | none => rw [lru_get_miss h]; exact ⟨rfl, rfl, rfl⟩

theorem lru_set_fields (s : EmbSys V) (key : String) (v : V) :
    (lru_set s key v).redis = s.redis ∧ (lru_set s key v).redisEnabled = s.redisEnabled := by
  rw [lru_set]
  split_ifs with h1 h2
  · exact ⟨rfl, rfl⟩
  · cases s.lruKeys with
    | nil => exact ⟨rfl, rfl⟩
    | cons a l => exact ⟨rfl, rfl⟩
  · exact ⟨rfl, rfl⟩

theorem gce_redis_off {s : EmbSys V} (hredis : s.redisEnabled = false)
    (getKey : String → String) (t : String) :
    get_cached_embedding getKey s t =
      (lookupA (getKey t) s.lruCache, (lru_get s (getKey t)).2) := by
  cases hl : lookupA (getKey t) s.lruCache with
  | some v => simp only [get_cached_embedding, lru_get_hit hl]
  | none => simp only [get_cached_embedding, lru_get_miss hl, hredis, Bool.false_eq_true,
      if_false]

theorem cache_embedding_redis_off {s : EmbSys V} (hredis : s.redisEnabled = false)
    (getKey : String → String) (t : String) (v : V) :
    cache_embedding getKey s t v = lru_set s (getKey t) v := by
  simp only [cache_embedding, (lru_set_fields s (getKey t) v).2, hredis,
    Bool.false_eq_true, if_false]

/-- With Redis disabled, phase 1 of `create_embeddings` reads every
text's key from the LRU in order: it returns the per-position hit
values, collects the missed texts, leaves the cache contents (and the
Redis fields) unchanged, and its state effect is exactly the sequence
of LRU reads. -/
theorem phase1_redis_off (getKey : String → String) :
    ∀ (texts : List String) (s : EmbSys V), s.redisEnabled = false →
    (embedPhase1 getKey s texts).1 = texts.map (fun t => lookupA (getKey t) s.lruCache) ∧
    (embedPhase1 getKey s texts).2.1 =
      texts.filter (fun t => (lookupA (getKey t) s.lruCache).isNone) ∧
    (embedPhase1 getKey s texts).2.2.lruCache = s.lruCache ∧
    (embedPhase1 getKey s texts).2.2.redisEnabled = false ∧
    (embedPhase1 getKey s texts).2.2.redis = s.redis ∧
    (embedPhase1 getKey s texts).2.2 =
      applyLruOps s (texts.map (fun t => LruOp.get (getKey t))) := by
  intro texts
  induction texts with
  | nil => intro s hr; exact ⟨rfl, rfl, rfl, hr, rfl, rfl⟩
  | cons t ts ih =>
    intro s hr
    have hgce := gce_redis_off hr getKey t
    have hfields := lru_get_fields s (getKey t)
    have hr1 : (lru_get s (getKey t)).2.redisEnabled = false := by rw [hfields.2.2, hr]
    obtain ⟨ih1, ih2, ih3, ih4, ih5, ih6⟩ := ih (lru_get s (getKey t)).2 hr1
    have hstep : embedPhase1 getKey s (t :: ts) =
        (let q := embedPhase1 getKey (lru_get s (getKey t)).2 ts
         match lookupA (getKey t) s.lruCache with
         | some v => (some v :: q.1, q.2.1, q.2.2)
         | none => (none :: q.1, t :: q.2.1, q.2.2)) := by
      simp only [embedPhase1, hgce]
    cases hl : lookupA (getKey t) s.lruCache with
    | some v =>
      rw [hstep, hl]
      simp only [hl]
      refine ⟨?_, ?_, ?_, ?_, ?_, ?_⟩
      · rw [ih1, hfields.1]
        simp [hl]
      · rw [ih2, hfields.1]
        simp [hl]
      · rw [ih3, hfields.1]
      · exact ih4
      · rw [ih5, hfields.2.1]
      · rw [ih6]
        simp [applyLruOps, applyLruOp]
    | none =>
      rw [hstep, hl]
      simp only [hl]
      refine ⟨?_, ?_, ?_, ?_, ?_, ?_⟩
      · rw [ih1, hfields.1]
        simp [hl]
      · rw [ih2, hfields.1]
        simp [hl]
      · rw [ih3, hfields.1]
      · exact ih4
      · rw [ih5, hfields.2.1]
      · rw [ih6]
        simp [applyLruOps, applyLruOp]

theorem batchInv_get {B keys0 P : List String} {valOf : String → Option V} {s : EmbSys V}
    (hinv : BatchInv B keys0 P valOf s) (k : String) (hkB : k ∈ B)
    (hval : (lookupA k s.lruCache).isSome → valOf k = lookupA k s.lruCache) :
    ∃ P', BatchInv B keys0 P' valOf (lru_get s k).2 ∧
      (∀ x ∈ P, x ∈ P') ∧ (∀ x ∈ P', x ∈ P ∨ x = k) ∧
      ((lookupA k s.lruCache).isSome → k ∈ P') ∧
      (lru_get s k).2.lruCache = s.lruCache := by
  obtain ⟨hredis, hwf, hPnd, hPB, ⟨pre, post, hsplit, hpreP, hpre0, hpostP, hPpost⟩, hvals⟩ :=
    hinv
  cases hl : lookupA k s.lruCache with
  | none =>
    rw [lru_get_miss hl]
    exact ⟨P, ⟨hredis, hwf, hPnd, hPB,
      ⟨pre, post, hsplit, hpreP, hpre0, hpostP, hPpost⟩, hvals⟩,
      fun x hx => hx, fun x hx => Or.inl hx, by simp [hl], rfl⟩
  | some v =>
    have hsome : (lookupA k s.lruCache).isSome := by simp [hl]
    have hwf2 := (WF_lru_get hwf k).1
    have hget := lru_get_hit hl
    have hknotpre : k ∈ P → k ∉ pre := fun hkP hkpre => hpreP k hkpre hkP
    have hredis2 : (lru_get s k).2.redisEnabled = false := by
      rw [(lru_get_fields s k).2.2, hredis]
    have hprend : pre.Nodup ∧ post.Nodup ∧ pre.Disjoint post := by
      have := hwf.1
      rw [hsplit] at this
      exact List.nodup_append.mp this
    by_cases hkP : k ∈ P
    · refine ⟨P, ⟨hredis2, ?_, hPnd, hPB, ?_, ?_⟩, fun x hx => hx, fun x hx => Or.inl hx,
        fun _ => hkP, ?_⟩
      · rw [hget]
        have := (WF_lru_get hwf k).1
        rw [hget] at this
        exact this
      · refine ⟨pre, post.erase k ++ [k], ?_, hpreP, hpre0, ?_, ?_⟩
        · rw [hget]
          simp only [hsplit]
          rw [List.erase_append_right post (hknotpre hkP)]
          simp [List.append_assoc]
        · intro x hx
          rcases List.mem_append.mp hx with h1 | h1
          · exact hpostP x (List.mem_of_mem_erase h1)
          · exact (List.mem_singleton.mp h1) ▸ hkP
        · intro x hx
          by_cases hxk : x = k
          · exact List.mem_append.mpr (Or.inr (by simp [hxk]))
          · refine List.mem_append.mpr (Or.inl ?_)
            rw [hprend.2.1.mem_erase_iff]
            exact ⟨hxk, hPpost x hx⟩
      · intro x hx
        rw [hget]
        exact hvals x hx
      · rw [hget]
    · have hkkeys : k ∈ s.lruKeys :=
        (hwf.2.2.1 k).mp (lookupA_isSome_iff.mp hsome)
      have hkpre : k ∈ pre := by
        rw [hsplit] at hkkeys
        rcases List.mem_append.mp hkkeys with h1 | h1
        · exact h1
        · exact absurd (hpostP k h1) hkP
      refine ⟨P ++ [k], ⟨hredis2, ?_, ?_, ?_, ?_, ?_⟩, fun x hx => List.mem_append_left _ hx,
        ?_, fun _ => List.mem_append_right _ (by simp), ?_⟩
      · rw [hget]
        have := (WF_lru_get hwf k).1
        rw [hget] at this
        exact this
      · simp only [List.nodup_append, List.nodup_singleton]
        exact ⟨hPnd, by trivial, fun a ha => by
          simp only [List.mem_singleton]
          exact fun hcontra => hkP (hcontra ▸ ha)⟩
      · intro x hx
        rcases List.mem_append.mp hx with h1 | h1
        · exact hPB x h1
        · exact (List.mem_singleton.mp h1) ▸ hkB
      · refine ⟨pre.erase k, post ++ [k], ?_, ?_, ?_, ?_, ?_⟩
        · rw [hget]
          simp only [hsplit]
          rw [List.erase_append_left post hkpre]
          simp [List.append_assoc]
        · intro x hx hxP
          have hxpre := List.mem_of_mem_erase hx
          rcases List.mem_append.mp hxP with h1 | h1
          · exact hpreP x hxpre h1
          · rw [List.mem_singleton.mp h1] at hx
            exact (hprend.1.mem_erase_iff.mp hx).1 rfl
        · intro x hx
          exact hpre0 x (List.mem_of_mem_erase hx)
        · intro x hx
          rcases List.mem_append.mp hx with h1 | h1
          · exact List.mem_append_left _ (hpostP x h1)
          · exact List.mem_append_right _ h1
        · intro x hx
          rcases List.mem_append.mp hx with h1 | h1
          · exact List.mem_append_left _ (hPpost x h1)
          · exact List.mem_append_right _ h1
      · intro x hx
        rw [hget]
        rcases List.mem_append.mp hx with h1 | h1
        · exact hvals x h1
        · rw [List.mem_singleton.mp h1]
          rw [hval hsome, hl]
      · intro x hx
        rcases List.mem_append.mp hx with h1 | h1
        · exact Or.inl h1
        · exact Or.inr (List.mem_singleton.mp h1)
      · rw [hget]

theorem batchInv_set {B keys0 P : List String} {valOf : String → Option V} {s : EmbSys V}
    (hinv : BatchInv B keys0 P valOf s) (hBlen : B.length ≤ LRU_CACHE_SIZE)
    (k : String) (v : V) (hkB : k ∈ B) (hval : valOf k = some v) (hk0 : k ∉ keys0) :
    ∃ P', BatchInv B keys0 P' valOf (lru_set s k v) ∧ (∀ x ∈ P, x ∈ P') ∧
      (∀ x ∈ P', x ∈ P ∨ x = k) ∧ k ∈ P' := by
  obtain ⟨hredis, hwf, hPnd, hPB, ⟨pre, post, hsplit, hpreP, hpre0, hpostP, hPpost⟩, hvals⟩ :=
    hinv
  have hredis2 : (lru_set s k v).redisEnabled = false := by
    rw [(lru_set_fields s k v).2, hredis]
  have hwf2 : WF (lru_set s k v) := WF_lru_set hwf k v
  have hprend : pre.Nodup ∧ post.Nodup ∧ pre.Disjoint post := by
    have := hwf.1
    rw [hsplit] at this
    exact List.nodup_append.mp this
  by_cases hkP : k ∈ P
  · have hkpost : k ∈ post := hPpost k hkP
    have hkkeys : k ∈ s.lruKeys := by
      rw [hsplit]
      exact List.mem_append_right _ hkpost
    have hksome : (lookupA k s.lruCache).isSome :=
      lookupA_isSome_iff.mpr ((hwf.2.2.1 k).mpr hkkeys)
    have hset := lru_set_overwrite v hksome
    refine ⟨P, ⟨hredis2, hwf2, hPnd, hPB, ?_, ?_⟩, fun x hx => hx,
      fun x hx => Or.inl hx, hkP⟩
    · refine ⟨pre, post, ?_, hpreP, hpre0, hpostP, hPpost⟩
      rw [hset]
      exact hsplit
    · intro x hx
      rw [hset]
      by_cases hxk : x = k
      · subst hxk
        rw [lookupA_setA_self, hval]
      · rw [lookupA_setA_other hxk _ v]
        exact hvals x hx
  · have hknotpre : k ∉ pre := fun h => hk0 (hpre0 k h)
    have hknotpost : k ∉ post := fun h => hkP (hpostP k h)
    have hknotkeys : k ∉ s.lruKeys := by
      rw [hsplit]
      intro h
      rcases List.mem_append.mp h with h1 | h1
      · exact hknotpre h1
      · exact hknotpost h1
    have hkmiss : lookupA k s.lruCache = none :=
      lookupA_eq_none_iff.mpr (fun h => hknotkeys ((hwf.2.2.1 k).mp h))
    have hPnd' : (P ++ [k]).Nodup := by
      simp only [List.nodup_append, List.nodup_singleton]
      exact ⟨hPnd, by trivial, fun a ha => by
        simp only [List.mem_singleton]
        exact fun hcontra => hkP (hcontra ▸ ha)⟩
    have hPB' : ∀ x ∈ P ++ [k], x ∈ B := by
      intro x hx
      rcases List.mem_append.mp hx with h1 | h1
      · exact hPB x h1
      · exact (List.mem_singleton.mp h1) ▸ hkB
    have hvals' : ∀ (cache' : List (String × V)),
        (∀ x ∈ P, lookupA x cache' = valOf x) → lookupA k cache' = some v →
        ∀ x ∈ P ++ [k], lookupA x cache' = valOf x := by
      intro cache' hold hk x hx
      rcases List.mem_append.mp hx with h1 | h1
      · exact hold x h1
      · rw [List.mem_singleton.mp h1, hk, hval]
    by_cases hfull : LRU_CACHE_SIZE ≤ s.lruKeys.length
    · have hlenpost : post.length = P.length := by
        have hperm : post.Perm P :=
          (List.perm_ext_iff_of_nodup hprend.2.1 hPnd).mpr (fun a => ⟨hpostP a, hPpost a⟩)
        exact hperm.length_eq
      have hPlt : P.length + 1 ≤ B.length := by
        have hsub := List.subperm_of_subset hPnd' (fun x hx => hPB' x hx)
        have := hsub.length_le
        simpa using this
      have hprepos : 0 < pre.length := by
        have hkeyslen : s.lruKeys.length = pre.length + post.length := by
          rw [hsplit, List.length_append]
        rw [hkeyslen] at hfull
        simp only [LRU_CACHE_SIZE] at hfull hBlen
        omega
      cases hpre : pre with
      | nil => rw [hpre] at hprepos; simp at hprepos
      | cons p0 pre' =>
        have hkeyscons : s.lruKeys = p0 :: (pre' ++ post) := by
          rw [hsplit, hpre]
          rfl
        have hset := lru_set_insert_full v hkmiss hkeyscons hfull
        have hp0pre : p0 ∈ pre := by rw [hpre]; exact List.mem_cons_self _ _
        have hp0notP : p0 ∉ P := hpreP p0 hp0pre
        have hp0nek : p0 ≠ k := fun h => hknotpre (h ▸ hp0pre)
        refine ⟨P ++ [k], ⟨hredis2, hwf2, hPnd', hPB', ?_, ?_⟩,
          fun x hx => List.mem_append_left _ hx, fun x hx => by
            rcases List.mem_append.mp hx with h1 | h1
            · exact Or.inl h1
            · exact Or.inr (List.mem_singleton.mp h1),
          List.mem_append_right _ (by simp)⟩
        · refine ⟨pre', post ++ [k], ?_, ?_, ?_, ?_, ?_⟩
          · rw [hset]
            simp [List.append_assoc]
          · intro x hx hxP
            have hxpre : x ∈ pre := by rw [hpre]; exact List.mem_cons_of_mem _ hx
            rcases List.mem_append.mp hxP with h1 | h1
            · exact hpreP x hxpre h1
            · exact hknotpre ((List.mem_singleton.mp h1) ▸ hxpre)
          · intro x hx
            exact hpre0 x (by rw [hpre]; exact List.mem_cons_of_mem _ hx)
          · intro x hx
            rcases List.mem_append.mp hx with h1 | h1
            · exact List.mem_append_left _ (hpostP x h1)
            · exact List.mem_append_right _ h1
          · intro x hx
            rcases List.mem_append.mp hx with h1 | h1
            · exact List.mem_append_left _ (hPpost x h1)
            · exact List.mem_append_right _ h1
        · rw [hset]
          refine hvals' _ ?_ ?_
          · intro x hx
            have hxnek : x ≠ k := fun h => hkP (h ▸ hx)
            have hxnep0 : x ≠ p0 := fun h => hp0notP (h ▸ hx)
            rw [lookupA_setA_other hxnek _ v, lookupA_removeA_other hxnep0]
            exact hvals x hx
          · rw [lookupA_setA_self]
    · have hset := lru_set_insert_below v hkmiss (Nat.not_le.mp hfull)
      refine ⟨P ++ [k], ⟨hredis2, hwf2, hPnd', hPB', ?_, ?_⟩,
        fun x hx => List.mem_append_left _ hx, fun x hx => by
          rcases List.mem_append.mp hx with h1 | h1
          · exact Or.inl h1
          · exact Or.inr (List.mem_singleton.mp h1),
        List.mem_append_right _ (by simp)⟩
      · refine ⟨pre, post ++ [k], ?_, ?_, hpre0, ?_, ?_⟩
        · rw [hset]
          simp only [hsplit]
          simp [List.append_assoc]
        · intro x hx hxP
          rcases List.mem_append.mp hxP with h1 | h1
          · exact hpreP x hx h1
          · exact hknotpre ((List.mem_singleton.mp h1) ▸ hx)
        · intro x hx
          rcases List.mem_append.mp hx with h1 | h1
          · exact List.mem_append_left _ (hpostP x h1)
          · exact List.mem_append_right _ h1
        · intro x hx
          rcases List.mem_append.mp hx with h1 | h1
          · exact List.mem_append_left _ (hPpost x h1)
          · exact List.mem_append_right _ h1
      · rw [hset]
        refine hvals' _ ?_ ?_
        · intro x hx
          have hxnek : x ≠ k := fun h => hkP (h ▸ hx)
          rw [lookupA_setA_other hxnek _ v]
          exact hvals x hx
        · rw [lookupA_setA_self]

theorem batchInv_gets (getKey : String → String) {B keys0 : List String}
    {valOf : String → Option V} (C : List (String × V))
    (hvalC : ∀ k, (lookupA k C).isSome → valOf k = lookupA k C) :
    ∀ (ts : List String) (s : EmbSys V) (P : List String),
    BatchInv B keys0 P valOf s → s.lruCache = C →
    (∀ t ∈ ts, getKey t ∈ B) →
    ∃ P', BatchInv B keys0 P' valOf
        (applyLruOps s (ts.map (fun t => LruOp.get (getKey t)))) ∧
      (∀ x ∈ P, x ∈ P') ∧
      (∀ t ∈ ts, (lookupA (getKey t) C).isSome → getKey t ∈ P') ∧
      (applyLruOps s (ts.map (fun t => LruOp.get (getKey t)))).lruCache = C := by
  intro ts
  induction ts with
  | nil =>
    intro s P hinv hcache _
    exact ⟨P, hinv, fun x hx => hx, fun t ht => absurd ht (List.not_mem_nil t), hcache⟩
  | cons t ts ih =>
    intro s P hinv hcache hB
    have hvalt : (lookupA (getKey t) s.lruCache).isSome →
        valOf (getKey t) = lookupA (getKey t) s.lruCache := by
      rw [hcache]
      exact hvalC (getKey t)
    obtain ⟨P1, hinv1, hmono1, hsub1, hin1, hcache1⟩ :=
      batchInv_get hinv (getKey t) (hB t (List.mem_cons_self _ _)) hvalt
    rw [hcache] at hcache1
    obtain ⟨P2, hinv2, hmono2, hin2, hcache2⟩ :=
      ih (lru_get s (getKey t)).2 P1 hinv1 hcache1
        (fun t' ht' => hB t' (List.mem_cons_of_mem _ ht'))
    refine ⟨P2, ?_, ?_, ?_, ?_⟩
    · simpa [applyLruOps, applyLruOp] using hinv2
    · exact fun x hx => hmono2 x (hmono1 x hx)
    · intro t' ht' hsome
      rcases List.mem_cons.mp ht' with h1 | h1
      · subst h1
        refine hmono2 _ (hin1 ?_)
        rw [hcache]
        exact hsome
      · exact hin2 t' h1 hsome
    · simpa [applyLruOps, applyLruOp] using hcache2

theorem batchInv_sets (getKey : String → String) (embedFn : String → V)
    {B keys0 : List String} {valOf : String → Option V}
    (hBlen : B.length ≤ LRU_CACHE_SIZE) :
    ∀ (ms : List String) (s : EmbSys V) (P : List String),
    BatchInv B keys0 P valOf s →
    (∀ t ∈ ms, getKey t ∈ B ∧ valOf (getKey t) = some (embedFn t) ∧ getKey t ∉ keys0) →
    ∃ P', BatchInv B keys0 P' valOf (cacheAll getKey embedFn s ms) ∧
      (∀ x ∈ P, x ∈ P') ∧ (∀ t ∈ ms, getKey t ∈ P') := by
  intro ms
  induction ms with
  | nil =>
    intro s P hinv _
    exact ⟨P, hinv, fun x hx => hx, fun t ht => absurd ht (List.not_mem_nil t)⟩
  | cons t ts ih =>
    intro s P hinv hms
    obtain ⟨htB, htval, ht0⟩ := hms t (List.mem_cons_self _ _)
    obtain ⟨P1, hinv1, hmono1, hsub1, hkP1⟩ :=
      batchInv_set hinv hBlen (getKey t) (embedFn t) htB htval ht0
    have hcache_step : cacheAll getKey embedFn s (t :: ts) =
        cacheAll getKey embedFn (lru_set s (getKey t) (embedFn t)) ts := by
      simp only [cacheAll]
      rw [cache_embedding_redis_off hinv.1]
    obtain ⟨P2, hinv2, hmono2, hin2⟩ :=
      ih (lru_set s (getKey t) (embedFn t)) P1 hinv1
        (fun t' ht' => hms t' (List.mem_cons_of_mem _ ht'))
    refine ⟨P2, ?_, ?_, ?_⟩
    · rw [hcache_step]
      exact hinv2
    · exact fun x hx => hmono2 x (hmono1 x hx)
    · intro t' ht'
      rcases List.mem_cons.mp ht' with h1 | h1
      · subst h1
        exact hmono2 _ hkP1
      · exact hin2 t' h1

theorem fillResults_filter_spec (g : String → Option V) (f : String → V) :
    ∀ (texts : List String),
    fillResults (texts.map g) ((texts.filter (fun t => (g t).isNone)).map f) =
      texts.map (fun t => match g t with | some v => some v | none => some (f t)) := by
  intro texts
  induction texts with
  | nil => rfl
  | cons t ts ih =>
    cases hg : g t with
    | some v =>
      simp only [List.map_cons, List.filter_cons, hg, Option.isNone_some,
        Bool.false_eq_true, if_false, fillResults]
      rw [ih]
    | none =>
      simp only [List.map_cons, List.filter_cons, hg, Option.isNone_none, if_pos,
        fillResults]
      rw [ih]

/-- C7 (amended): with the shared Redis tier disabled, calling
`create_embeddings` twice in succession with the identical text list
returns identical vectors both times, and the second call computes
nothing (`texts_to_compute` is empty, so `model.encode` is never
invoked) — provided the texts' cache keys are collision-free on the
batch and the batch has at most 500 distinct keys (the LRU capacity),
and the cache state is well-formed. -/
theorem C7_second_call_cached (V : Type) (getKey : String → String) (embedFn : String → V)
    (s : EmbSys V) (texts : List String)
    (hwf : WF s) (hredis : s.redisEnabled = false)
    (hinj : ∀ t1 ∈ texts, ∀ t2 ∈ texts, getKey t1 = getKey t2 → t1 = t2)
    (hcard : ((texts.map getKey).dedup).length ≤ LRU_CACHE_SIZE) :
    (create_embeddings getKey embedFn
      (create_embeddings getKey embedFn s texts).state texts).results =
      (create_embeddings getKey embedFn s texts).results ∧
    (create_embeddings getKey embedFn
      (create_embeddings getKey embedFn s texts).state texts).computed = [] := by
  by_cases hne : texts = []
  · subst hne
    exact ⟨rfl, rfl⟩
  have hempty : texts.isEmpty = false := by
    cases texts with
    | nil => exact absurd rfl hne
    | cons a l => rfl
  set B := (texts.map getKey).dedup with hBdef
  set misses := texts.filter (fun t => (lookupA (getKey t) s.lruCache).isNone) with hmdef
  set valOf : String → Option V := fun k =>
    match lookupA k s.lruCache with
    | some v => some v
    | none =>
      match misses.find? (fun t => getKey t = k) with
      | some t => some (embedFn t)
      | none => none
    with hvdef
  have hvalC : ∀ k, (lookupA k s.lruCache).isSome → valOf k = lookupA k s.lruCache := by
    intro k hk
    cases hl : lookupA k s.lruCache with
    | some v => rw [hvdef]; simp [hl]
    | none => rw [hl] at hk; simp at hk
  have hBmem : ∀ t ∈ texts, getKey t ∈ B := by
    intro t ht
    rw [hBdef]
    exact List.mem_dedup.mpr (List.mem_map_of_mem getKey ht)
  have hvalMiss : ∀ t ∈ texts, lookupA (getKey t) s.lruCache = none →
      valOf (getKey t) = some (embedFn t) := by
    intro t ht hnone
    rw [hvdef]
    simp only [hnone]
    have hmem : t ∈ misses := by
      rw [hmdef]
      exact List.mem_filter.mpr ⟨ht, by simp [hnone]⟩
    have hsome : (misses.find? (fun t' => getKey t' = getKey t)).isSome := by
      rw [List.find?_isSome]
      exact ⟨t, hmem, by simp⟩
    cases hfind : misses.find? (fun t' => getKey t' = getKey t) with
    | none => rw [hfind] at hsome; simp at hsome
    | some t' =>
      have hkey : getKey t' = getKey t := by simpa using List.find?_some hfind
      have ht' : t' ∈ texts := by
        have := List.mem_of_find?_eq_some hfind
        rw [hmdef] at this
        exact (List.mem_filter.mp this).1
      rw [hinj t' ht' t ht hkey]
  have hinv0 : BatchInv B s.lruKeys [] valOf s := by
    refine ⟨hredis, hwf, List.nodup_nil, by simp, ⟨s.lruKeys, [], by simp, ?_, ?_, ?_, ?_⟩,
      by simp⟩
    · intro k _ hk
      exact absurd hk (List.not_mem_nil k)
    · exact fun k hk => hk
    · intro k hk
      exact absurd hk (List.not_mem_nil k)
    · intro k hk
      exact absurd hk (List.not_mem_nil k)
  obtain ⟨P1, hinvA, _, hhits, hcacheA⟩ :=
    batchInv_gets getKey s.lruCache hvalC texts s [] hinv0 rfl hBmem
  obtain ⟨hp1, hp2, hp3, hp4, hp5, hp6⟩ := phase1_redis_off getKey texts s hredis
  have hmisskeys0 : ∀ t ∈ misses, getKey t ∉ s.lruKeys := by
    intro t ht hmem
    have hisNone : (lookupA (getKey t) s.lruCache).isNone := by
      rw [hmdef] at ht
      simpa using (List.mem_filter.mp ht).2
    have : (lookupA (getKey t) s.lruCache).isSome :=
      lookupA_isSome_iff.mpr ((hwf.2.2.1 (getKey t)).mpr hmem)
    cases hl : lookupA (getKey t) s.lruCache with
    | some v => rw [hl] at hisNone; simp at hisNone
    | none => rw [hl] at this; simp at this
  have hsets_hyp : ∀ t ∈ misses, getKey t ∈ B ∧ valOf (getKey t) = some (embedFn t) ∧
      getKey t ∉ s.lruKeys := by
    intro t ht
    have htx : t ∈ texts := by
      rw [hmdef] at ht
      exact (List.mem_filter.mp ht).1
    have hnone : lookupA (getKey t) s.lruCache = none := by
      rw [hmdef] at ht
      have := (List.mem_filter.mp ht).2
      cases hl : lookupA (getKey t) s.lruCache with
      | some v => rw [hl] at this; simp at this
      | none => rfl
    exact ⟨hBmem t htx, hvalMiss t htx hnone, hmisskeys0 t ht⟩
  obtain ⟨P2, hinvF, hmonoF, hmissF⟩ :=
    batchInv_sets getKey embedFn hcard misses
      (applyLruOps s (texts.map (fun t => LruOp.get (getKey t)))) P1 (hp6 ▸ hinvA)
      hsets_hyp
  -- the state after call 1, in both the hit-only and the general case
  have hfinal : ∀ (sf : EmbSys V), BatchInv B s.lruKeys P2 valOf sf →
      (∀ t ∈ texts, getKey t ∈ P2) →
      (create_embeddings getKey embedFn sf texts).results =
        texts.map (fun t => valOf (getKey t)) ∧
      (create_embeddings getKey embedFn sf texts).computed = [] := by
    intro sf hinvSf hallP
    have hlook : ∀ t ∈ texts, lookupA (getKey t) sf.lruCache = valOf (getKey t) := by
      intro t ht
      exact hinvSf.2.2.2.2.2 (getKey t) (hallP t ht)
    have hvsome : ∀ t ∈ texts, (valOf (getKey t)).isSome := by
      intro t ht
      cases hl : lookupA (getKey t) s.lruCache with
      | some v =>
        rw [hvdef]
        simp [hl]
      | none =>
        rw [hvalMiss t ht hl]
        rfl
    obtain ⟨hq1, hq2, hq3, hq4, hq5, hq6⟩ := phase1_redis_off getKey texts sf hinvSf.1
    have hmiss2 : (embedPhase1 getKey sf texts).2.1 = [] := by
      rw [hq2]
      rw [List.filter_eq_nil_iff]
      intro t ht
      rw [hlook t ht]
      have := hvsome t ht
      intro hcon
      rw [Option.isNone_iff_eq_none] at hcon
      rw [hcon] at this
      simp at this
    constructor
    · simp only [create_embeddings, hempty, Bool.false_eq_true, if_false, hmiss2,
        List.isEmpty_nil, if_true]
      rw [hq1]
      exact List.map_congr_left (fun t ht => hlook t ht)
    · simp only [create_embeddings, hempty, Bool.false_eq_true, if_false, hmiss2,
        List.isEmpty_nil, if_true]
  have hcall1_results : (create_embeddings getKey embedFn s texts).results =
      texts.map (fun t => valOf (getKey t)) := by
    simp only [create_embeddings, hempty, Bool.false_eq_true, if_false]
    by_cases hm : (embedPhase1 getKey s texts).2.1.isEmpty
    · rw [if_pos hm, hp1]
      refine List.map_congr_left (fun t ht => ?_)
      have hmnil : misses = [] := by
        rw [hmdef, ← hp2]
        exact List.isEmpty_iff.mp hm
      have hhit : (lookupA (getKey t) s.lruCache).isNone = false := by
        by_cases hl : (lookupA (getKey t) s.lruCache).isNone
        · exfalso
          have : t ∈ misses := by
            rw [hmdef]
            exact List.mem_filter.mpr ⟨ht, by simpa using hl⟩
          rw [hmnil] at this
          exact absurd this (List.not_mem_nil t)
        · cases hx : lookupA (getKey t) s.lruCache with
          | some v => rfl
          | none => exact absurd (by rw [hx]; rfl) hl
      cases hl : lookupA (getKey t) s.lruCache with
      | some v =>
        rw [hvdef]
        simp [hl]
      | none => rw [hl] at hhit; simp at hhit
    · rw [if_neg hm, hp1, hp2]
      rw [← hmdef]
      rw [fillResults_filter_spec (fun t => lookupA (getKey t) s.lruCache) embedFn texts]
      refine List.map_congr_left (fun t ht => ?_)
      cases hl : lookupA (getKey t) s.lruCache with
      | some v =>
        rw [hvdef]
        simp [hl]
      | none =>
        simp only
        rw [hvalMiss t ht hl]
  have hcall1_state : BatchInv B s.lruKeys P2 valOf
      (create_embeddings getKey embedFn s texts).state ∧
      (∀ t ∈ texts, getKey t ∈ P2) := by
    constructor
    · simp only [create_embeddings, hempty, Bool.false_eq_true, if_false]
      by_cases hm : (embedPhase1 getKey s texts).2.1.isEmpty
      · rw [if_pos hm]
        have hmnil : misses = [] := by
          rw [hmdef, ← hp2]
          exact List.isEmpty_iff.mp hm
        have : cacheAll getKey embedFn
            (applyLruOps s (texts.map (fun t => LruOp.get (getKey t)))) misses =
            applyLruOps s (texts.map (fun t => LruOp.get (getKey t))) := by
          rw [hmnil]
          rfl
        rw [hp6]
        rw [← this]
        exact hinvF
      · rw [if_neg hm]
        rw [hp6, hp2, ← hmdef]
        exact hinvF
    · intro t ht
      by_cases hl : (lookupA (getKey t) s.lruCache).isNone
      · refine hmissF t ?_
        rw [hmdef]
        exact List.mem_filter.mpr ⟨ht, by simpa using hl⟩
      · have hsome : (lookupA (getKey t) s.lruCache).isSome := by
          cases hx : lookupA (getKey t) s.lruCache with
          | some v => rfl
          | none => rw [hx] at hl; simp at hl
        exact hmonoF _ (hhits t ht hsome)
  obtain ⟨hr2res, hr2comp⟩ := hfinal (create_embeddings getKey embedFn s texts).state
    hcall1_state.1 hcall1_state.2
  exact ⟨by rw [hr2res, hcall1_results], hr2comp⟩

/-- C7 witness: a concrete two-text batch through the empty initial
cache with Redis disabled — the second identical call returns the
same vectors and computes nothing. -/
theorem C7_witness :
    (WF (embInit Int) ∧ (embInit Int).redisEnabled = false ∧
      (∀ t1 ∈ ["alpha", "beta"], ∀ t2 ∈ ["alpha", "beta"],
        (fun t => t) t1 = (fun t => t) t2 → t1 = t2) ∧
      ((["alpha", "beta"].map (fun t => t)).dedup).length ≤ LRU_CACHE_SIZE) ∧
    ((create_embeddings (fun t => t) (fun t => (t.length : Int))
        (create_embeddings (fun t => t) (fun t => (t.length : Int))
          (embInit Int) ["alpha", "beta"]).state ["alpha", "beta"]).results =
      (create_embeddings (fun t => t) (fun t => (t.length : Int))
        (embInit Int) ["alpha", "beta"]).results ∧
      (create_embeddings (fun t => t) (fun t => (t.length : Int))
        (create_embeddings (fun t => t) (fun t => (t.length : Int))
          (embInit Int) ["alpha", "beta"]).state ["alpha", "beta"]).computed = []) :=
  ⟨⟨@WF_embInit Int, rfl, fun t1 _ t2 _ h => h, by decide⟩,
   C7_second_call_cached Int (fun t => t) (fun t => (t.length : Int)) (embInit Int)
     ["alpha", "beta"] (@WF_embInit Int) rfl (fun t1 _ t2 _ h => h) (by decide)⟩

theorem applyLruOps_append (l1 l2 : List (LruOp V)) : ∀ (s : EmbSys V),
    applyLruOps s (l1 ++ l2) = applyLruOps (applyLruOps s l1) l2 := by
  induction l1 with
  | nil => intro s; rfl
  | cons op ops ih => intro s; exact ih (applyLruOp s op)

theorem applyLruOps_redisEnabled : ∀ (ops : List (LruOp V)) (s : EmbSys V),
    (applyLruOps s ops).redisEnabled = s.redisEnabled := by
  intro ops
  induction ops with
  | nil => intro s; rfl
  | cons op ops ih =>
    intro s
    have hstep : applyLruOps s (op :: ops) = applyLruOps (applyLruOp s op) ops := rfl
    rw [hstep, ih]
    cases op with
    | get k => exact (lru_get_fields s k).2.2
    | set k v => exact (lru_set_fields s k v).2

/-- With Redis disabled, the phase-2 caching loop is exactly a fold of
LRU inserts over the computed texts. -/
theorem cacheAll_redis_off (getKey : String → String) (embedFn : String → V) :
    ∀ (ts : List String) (s : EmbSys V), s.redisEnabled = false →
    cacheAll getKey embedFn s ts =
      applyLruOps s (ts.map (fun t => LruOp.set (getKey t) (embedFn t))) := by
  intro ts
  induction ts with
  | nil => intro s _; rfl
  | cons t ts ih =>
    intro s hr
    show cacheAll getKey embedFn (cache_embedding getKey s t (embedFn t)) ts = _
    rw [cache_embedding_redis_off hr]
    exact ih (lru_set s (getKey t) (embedFn t))
      (((lru_set_fields s (getKey t) (embedFn t)).2).trans hr)

/-- On an empty in-process cache with Redis disabled, phase 1 misses
every text and leaves the state untouched. -/
theorem embedPhase1_empty_cache (getKey : String → String) :
    ∀ (texts : List String) (s : EmbSys V), s.lruCache = [] → s.redisEnabled = false →
    embedPhase1 getKey s texts = (texts.map (fun _ => none), texts, s) := by
  intro texts
  induction texts with
  | nil => intro s _ _; rfl
  | cons t ts ih =>
    intro s hc hr
    have hl : lookupA (getKey t) s.lruCache = none := by rw [hc]; rfl
    have hg : get_cached_embedding getKey s t = (none, s) := by
      rw [gce_redis_off hr, hl, lru_get_miss hl]
    simp only [embedPhase1, hg, ih s hc hr, List.map_cons]

theorem EmbCallResult_computed_mk (r : List (Option V)) (s : EmbSys V) (c : List String) :
    (EmbCallResult.mk r s c).computed = c := rfl

theorem lru_set_full_cache {s : EmbSys V} {key oldest : String} {restKeys : List String}
    (v : V) (hmiss : lookupA key s.lruCache = none)
    (hkeys : s.lruKeys = oldest :: restKeys) (hlen : LRU_CACHE_SIZE ≤ s.lruKeys.length) :
    (lru_set s key v).lruCache = setA key v (removeA oldest s.lruCache) := by
  rw [lru_set_insert_full v hmiss hkeys hlen]

set_option maxRecDepth 8192 in
/-- Running the 501 fresh inserts that call 1 of the C7 refutation
performs on the empty initial cache: the first 500 fill the LRU to
capacity, and the 501st evicts the recency-list front - the first
text's key. -/
theorem c7cex_evicted :
    lookupA (repKey 0)
      (applyLruOps (embInit Int) (texts501.map (fun t => LruOp.set t (0 : Int)))).lruCache =
      none ∧
    (applyLruOps (embInit Int)
      (texts501.map (fun t => LruOp.set t (0 : Int)))).redisEnabled = false := by
  have hsplit : texts501 = (List.range 500).map repKey ++ [repKey 500] := by
    show (List.range (500 + 1)).map repKey = _
    rw [List.range_succ, List.map_append]
    rfl
  have hnd500 : ((List.range 500).map repKey).Nodup :=
    (List.nodup_range 500).map (fun i j h => repKey_inj h)
  have hfresh : ∀ k ∈ (List.range 500).map repKey, k ∉ (embInit Int).lruKeys := by
    intro k _ hk
    simp [embInit] at hk
  have hcap : (embInit Int).lruKeys.length + ((List.range 500).map repKey).length ≤
      LRU_CACHE_SIZE := by
    rw [List.length_map, List.length_range]
    exact Nat.le_refl 500
  obtain ⟨hwf500, hkeys500, hsome500, hother500⟩ :=
    lruSet_fresh_all (0 : Int) ((List.range 500).map repKey) (embInit Int) (@WF_embInit Int)
      hnd500 hfresh hcap
  have hkeys : (applyLruOps (embInit Int)
      (((List.range 500).map repKey).map (fun k => LruOp.set k (0 : Int)))).lruKeys =
      (List.range 500).map repKey := by
    rw [hkeys500]
    rfl
  have hlen500 : LRU_CACHE_SIZE ≤ (applyLruOps (embInit Int)
      (((List.range 500).map repKey).map
        (fun k => LruOp.set k (0 : Int)))).lruKeys.length := by
    rw [hkeys, List.length_map, List.length_range]
    exact Nat.le_refl 500
  have hnotin : repKey 500 ∉ (List.range 500).map repKey := by
    intro hmem
    obtain ⟨i, hi, hEq⟩ := List.mem_map.mp hmem
    have hieq := repKey_inj hEq
    rw [hieq] at hi
    exact Nat.lt_irrefl 500 (List.mem_range.mp hi)
  have hmiss500 : lookupA (repKey 500) (applyLruOps (embInit Int)
      (((List.range 500).map repKey).map (fun k => LruOp.set k (0 : Int)))).lruCache =
      none := by
    rw [hother500 (repKey 500) hnotin]
    rfl
  have hk500 : (List.range 500).map repKey =
      repKey 0 :: ((List.range 499).map Nat.succ).map repKey := by
    show (List.range (499 + 1)).map repKey = _
    rw [List.range_succ_eq_map, List.map_cons]
  have hcache := lru_set_full_cache (0 : Int) hmiss500 (hkeys.trans hk500) hlen500
  have hne05 : repKey 0 ≠ repKey 500 := by
    intro h
    exact absurd (repKey_inj h) (by decide)
  have hev : lookupA (repKey 0) (lru_set (applyLruOps (embInit Int)
      (((List.range 500).map repKey).map (fun k => LruOp.set k (0 : Int))))
      (repKey 500) (0 : Int)).lruCache = none := by
    rw [hcache, lookupA_setA_other hne05, lookupA_removeA_self hwf500.2.1]
  have hops : texts501.map (fun t => LruOp.set t (0 : Int)) =
      ((List.range 500).map repKey).map (fun k => LruOp.set k (0 : Int)) ++
        [LruOp.set (repKey 500) (0 : Int)] := by
    rw [hsplit, List.map_append]
    rfl
  have happ : applyLruOps (embInit Int) (texts501.map (fun t => LruOp.set t (0 : Int))) =
      lru_set (applyLruOps (embInit Int)
        (((List.range 500).map repKey).map (fun k => LruOp.set k (0 : Int))))
        (repKey 500) (0 : Int) := by
    rw [hops, applyLruOps_append]
    rfl
  refine ⟨?_, ?_⟩
  · rw [happ]
    exact hev
  · rw [applyLruOps_redisEnabled]
    rfl

set_option maxRecDepth 8192 in
/-- C7: the claim as universally stated is refuted — with Redis
disabled and a batch of 501 distinct texts (one more than the LRU
capacity of 500), the first call's own phase-2 inserts evict the
first text's entry before the call returns, so the second identical
call misses the cache on that text: `texts_to_compute` is non-empty
and the embedding model is invoked again. -/
theorem C7_counterexample :
    (create_embeddings (fun t => t) (fun _ => (0 : Int))
      (create_embeddings (fun t => t) (fun _ => (0 : Int)) (embInit Int) texts501).state
      texts501).computed ≠ [] := by
  have hempty : texts501.isEmpty = false := rfl
  have hP1 : embedPhase1 (fun t => t) (embInit Int) texts501 =
      (texts501.map (fun _ => none), texts501, embInit Int) :=
    embedPhase1_empty_cache (fun t => t) texts501 (embInit Int) rfl rfl
  have hstate1 : (create_embeddings (fun t => t) (fun _ => (0 : Int)) (embInit Int)
      texts501).state =
      cacheAll (fun t => t) (fun _ => (0 : Int)) (embInit Int) texts501 := by
    simp only [create_embeddings, hempty, Bool.false_eq_true, if_false, hP1]
  have hca : cacheAll (fun t => t) (fun _ => (0 : Int)) (embInit Int) texts501 =
      applyLruOps (embInit Int) (texts501.map (fun t => LruOp.set t (0 : Int))) :=
    cacheAll_redis_off (fun t => t) (fun _ => (0 : Int)) texts501 (embInit Int) rfl
  obtain ⟨hev, hred⟩ := c7cex_evicted
  have hS : (create_embeddings (fun t => t) (fun _ => (0 : Int)) (embInit Int)
      texts501).state =
      applyLruOps (embInit Int) (texts501.map (fun t => LruOp.set t (0 : Int))) :=
    hstate1.trans hca
  have hcomp : (create_embeddings (fun t => t) (fun _ => (0 : Int))
      (applyLruOps (embInit Int) (texts501.map (fun t => LruOp.set t (0 : Int))))
      texts501).computed =
      texts501.filter (fun t => (lookupA t (applyLruOps (embInit Int)
        (texts501.map (fun t => LruOp.set t (0 : Int)))).lruCache).isNone) := by
    obtain ⟨h1, hq2, h3, h4, h5, h6⟩ := phase1_redis_off (fun t => t) texts501
      (applyLruOps (embInit Int) (texts501.map (fun t => LruOp.set t (0 : Int)))) hred
    simp only [create_embeddings, hempty, Bool.false_eq_true, if_false]
    by_cases h : (embedPhase1 (fun t => t) (applyLruOps (embInit Int)
        (texts501.map (fun t => LruOp.set t (0 : Int)))) texts501).2.1.isEmpty = true
    · rw [if_pos h, EmbCallResult_computed_mk]
      exact hq2
    · rw [if_neg h, EmbCallResult_computed_mk]
      exact hq2
  rw [hS, hcomp]
  have hmem : repKey 0 ∈ texts501.filter (fun t => (lookupA t (applyLruOps (embInit Int)
      (texts501.map (fun t => LruOp.set t (0 : Int)))).lruCache).isNone) := by
    rw [List.mem_filter]
    refine ⟨?_, ?_⟩
    · show repKey 0 ∈ (List.range 501).map repKey
      exact List.mem_map.mpr ⟨0, List.mem_range.mpr (by decide), rfl⟩
    · show (lookupA (repKey 0) (applyLruOps (embInit Int)
        (texts501.map (fun t => LruOp.set t (0 : Int)))).lruCache).isNone = true
      rw [hev]
      rfl
  exact List.ne_nil_of_mem hmem

end LruLemmas

end ChatBotSpec
